import Mathlib

/-!
Verification model of the `kvs` log-structured key-value store engine
(`src/engine/kvs.rs`).

Modelling conventions:

* The serialized byte stream is modelled at Unicode-code-point granularity
  (`List Char`); offsets and lengths are counted in code points.  The store
  reads with the same units it writes, so every property below is independent
  of this choice of unit.
* Rust `u64` / `usize` quantities (offsets, sizes, the unreclaimed-space
  counter) are modelled as `Nat`; the only `u64` arithmetic that can
  plausibly wrap, the fragment-id increment performed by compaction, is
  modelled with an explicit `% 2 ^ 64` (release-profile wrapping semantics).
* `HashMap` is modelled as an association list with replace-first insertion,
  remove-first deletion and find-first lookup; iteration order of
  `HashMap::iter_mut` (unspecified in Rust) is modelled as list order.
* The engine flushes its `BufWriter` after every mutation, so the writer
  handle, the reader registered for the active fragment and the on-disk file
  of the active fragment always observe the same byte sequence on the
  success path; the model therefore keeps a single `active_content` stream
  for the active fragment and a map `others` for the remaining read-only
  fragments.
* serde_json is external to the repository.  Its encoding of `LogEntry` is
  fixed by the spec's on-disk contract (section 6): externally tagged JSON
  values, standard JSON string escaping, records concatenated with no
  separator.  `encodeEntry` / `parseEntry` implement exactly that contract.
-/

namespace Kvs

/-! ### Association-list maps (model of `HashMap`) -/

/-- Find-first lookup in an association list. -/
def lookupK {κ α : Type} [DecidableEq κ] : List (κ × α) → κ → Option α
  | [], _ => none
  | (k', v) :: t, k => if k' = k then some v else lookupK t k

/-- Replace-first insertion; returns the new list and the previous value
(model of `HashMap::insert`). -/
def insertK {κ α : Type} [DecidableEq κ] : List (κ × α) → κ → α → List (κ × α) × Option α
  | [], k, v => ([(k, v)], none)
  | (k', v') :: t, k, v =>
    if k' = k then ((k, v) :: t, some v')
    else
      match insertK t k v with
      | (t', prev) => ((k', v') :: t', prev)

/-- Remove-first deletion; returns the new list and the removed value
(model of `HashMap::remove`). -/
def eraseK {κ α : Type} [DecidableEq κ] : List (κ × α) → κ → List (κ × α) × Option α
  | [], _ => ([], none)
  | (k', v') :: t, k =>
    if k' = k then (t, some v')
    else
      match eraseK t k with
      | (t', prev) => ((k', v') :: t', prev)

/-! ### Log records and the serde_json codec

`LogEntry` mirrors the Rust `enum LogEntry { Set { key, value }, Rm { key } }`.
serde_json serializes it as an externally tagged JSON value; the byte layout
is fixed by the spec's on-disk contract (section 6).  `escapeChar` follows
serde_json's string escaping: `"` and `\\` are escaped, control characters
below 0x20 use the short escapes `\\b \\t \\n \\f \\r` or `\\u00XX` with
lowercase hex digits, everything else is emitted verbatim. -/

inductive LogEntry : Type
  | Set (key value : String)
  | Rm (key : String)
deriving DecidableEq

/-- Lowercase hexadecimal digit, as used by serde_json's `\\u00XX` escapes. -/
def hexDigitChar (n : Nat) : Char := Char.ofNat (if n < 10 then 48 + n else 87 + n)

def escapeChar (c : Char) : List Char :=
  if c = '"' then ['\\', '"']
  else if c = '\\' then ['\\', '\\']
  else if c.toNat < 32 then
    if c.toNat = 8 then ['\\', 'b']
    else if c.toNat = 9 then ['\\', 't']
    else if c.toNat = 10 then ['\\', 'n']
    else if c.toNat = 12 then ['\\', 'f']
    else if c.toNat = 13 then ['\\', 'r']
    else ['\\', 'u', '0', '0', hexDigitChar (c.toNat / 16), hexDigitChar (c.toNat % 16)]
  else [c]

def escapeString (s : List Char) : List Char := (s.map escapeChar).flatten

/-- Literal fragments of the two record layouts.  A brace is written with a
hexadecimal escape purely as a lexical convention of this file. -/
def setHead : List Char := "\x7b\"Set\":\x7b\"key\":\"".data

def setMid : List Char := ",\"value\":\"".data

def rmHead : List Char := "\x7b\"Rm\":\x7b\"key\":\"".data

def closeTail : List Char := "\x7d\x7d".data

/-- Model of `serde_json::to_vec(&entry)`. -/
def encodeEntry : LogEntry → List Char
  | .Set k v =>
    setHead ++ escapeString k.data ++ '"' :: (setMid ++ escapeString v.data ++ '"' :: closeTail)
  | .Rm k => rmHead ++ escapeString k.data ++ '"' :: closeTail

/-- Concatenation of records with no separator: the content of a fragment
file produced by the engine. -/
def encodeAll (es : List LogEntry) : List Char := (es.map encodeEntry).flatten

def hexVal? (c : Char) : Option Nat :=
  if 48 <= c.toNat && c.toNat <= 57 then some (c.toNat - 48)
  else if 97 <= c.toNat && c.toNat <= 102 then some (c.toNat - 87)
  else if 65 <= c.toNat && c.toNat <= 70 then some (c.toNat - 55)
  else none

def unescapeChar? (c : Char) : Option Char :=
  if c = '"' then some '"'
  else if c = '\\' then some '\\'
  else if c = '/' then some '/'
  else if c = 'b' then some (Char.ofNat 8)
  else if c = 't' then some (Char.ofNat 9)
  else if c = 'n' then some (Char.ofNat 10)
  else if c = 'f' then some (Char.ofNat 12)
  else if c = 'r' then some (Char.ofNat 13)
  else none

def hexQuad (a b c d : Char) : Option Nat :=
  match hexVal? a, hexVal? b, hexVal? c, hexVal? d with
  | some x, some y, some z, some w => some (((x * 16 + y) * 16 + z) * 16 + w)
  | _, _, _, _ => none

/-- Decode the remainder of one escape sequence (the stream after the
backslash), returning the decoded character and the remaining stream. -/
def parseEsc : List Char → Option (Char × List Char)
  | [] => none
  | e :: rest =>
    if e = 'u' then
      match rest with
      | a :: b :: c2 :: d :: rest2 =>
        match hexQuad a b c2 d with
        | none => none
        | some n => some (Char.ofNat n, rest2)
      | _ => none
    else
      match unescapeChar? e with
      | none => none
      | some ch => some (ch, rest)

/-- JSON string body decoder: consumes up to and including the closing
quote, returning the decoded characters and the remaining stream.  The
fuel argument only serves as a structural termination measure; any fuel
of at least the stream length gives the decoder's value. -/
def parseJsonStringF : Nat → List Char → Option (List Char × List Char)
  | 0, _ => none
  | _ + 1, [] => none
  | fuel + 1, c :: rest =>
    if c = '"' then some ([], rest)
    else if c = '\\' then
      match parseEsc rest with
      | none => none
      | some (ch, rest') =>
        match parseJsonStringF fuel rest' with
        | none => none
        | some (t, r) => some (ch :: t, r)
    else if c.toNat < 32 then none
    else
      match parseJsonStringF fuel rest with
      | none => none
      | some (t, r) => some (c :: t, r)

def parseJsonString (l : List Char) : Option (List Char × List Char) :=
  parseJsonStringF l.length l

/-- Expect an exact literal at the head of the stream. -/
def parseLit : List Char → List Char → Option (List Char)
  | [], s => some s
  | _ :: _, [] => none
  | c :: lit, d :: s => if d = c then parseLit lit s else none

/-- One-record decoder for the two layouts the engine writes; model of
deserializing one `LogEntry` from the head of a byte stream. -/
def parseEntry (s : List Char) : Option (LogEntry × List Char) :=
  match parseLit setHead s with
  | some r1 =>
    match parseJsonString r1 with
    | none => none
    | some (k, r2) =>
      match parseLit setMid r2 with
      | none => none
      | some r3 =>
        match parseJsonString r3 with
        | none => none
        | some (v, r4) =>
          match parseLit closeTail r4 with
          | none => none
          | some r5 => some (.Set (String.mk k) (String.mk v), r5)
  | none =>
    match parseLit rmHead s with
    | none => none
    | some r1 =>
      match parseJsonString r1 with
      | none => none
      | some (k, r2) =>
        match parseLit closeTail r2 with
        | none => none
        | some r3 => some (.Rm (String.mk k), r3)

def isWs (c : Char) : Bool := c = ' ' || c = '\t' || c = '\n' || c = '\r'

/-- Model of `serde_json::from_slice::<LogEntry>`: exactly one value,
followed only by whitespace. -/
def decodeSlice (l : List Char) : Option LogEntry :=
  match parseEntry l with
  | none => none
  | some (e, r) => if r.all isWs then some e else none

/-! ### Store state

`KvStore` models the Rust struct of the same name.  `active_content` is the
byte stream of the active fragment as seen, identically, by the append
handle (`writer`), the buffered reader registered for the active fragment
id, and the on-disk file — the three agree after every successful flush.
`others` maps each non-active fragment id to its file content (the
`fragment_readers` entries other than the active one). -/

/-- Mirror of the Rust `EntryPosition` (fragment id, byte offset, length). -/
structure EntryPosition : Type where
  fragment : Nat
  pos : Nat
  size : Nat
deriving DecidableEq

/-- Mirror of `StoreError`.  `Io` and `Serde` drop the wrapped causes.
`Panic` is not a Rust `StoreError` variant: it models a process panic
(the `expect` / `panic!` paths of `get`). -/
inductive StoreError : Type
  | Io : StoreError
  | Serde : StoreError
  | NotFound : StoreError
  | Fragment (msg : String) : StoreError
  | Panic : StoreError
deriving DecidableEq

deriving instance DecidableEq for Except

structure KvStore : Type where
  unreclaimed_space : Nat
  fragment : Nat
  active_content : List Char
  others : List (Nat × List Char)
  index : List (String × EntryPosition)
deriving DecidableEq

/-- Byte threshold of unclaimed space that should trigger compaction
(`COMPACTION_THRESHOLD`, default 1 MB). -/
def COMPACTION_THRESHOLD : Nat := 1000000

/-- The content visible through `fragment_readers[f]`. -/
def readersLookup (s : KvStore) (f : Nat) : Option (List Char) :=
  if f = s.fragment then some s.active_content else lookupK s.others f

/-- Reading `n` bytes at offset `p` (seek + `read_exact` succeeds iff
`p + n` is within the file). -/
def slice (l : List Char) (p n : Nat) : List Char := (l.drop p).take n

/-- The fragment-id increment of compaction, with `u64` wrapping. -/
def newFragId (s : KvStore) : Nat := (s.fragment + 1) % 2 ^ 64

/-- The per-entry copy loop of `KvStore::compact`: for each index entry,
seek the reader of the entry's fragment, read exactly `size` bytes and
append them to the new fragment, recording the pre-write offset. -/
def compactLoop (s : KvStore) (g : Nat) :
    List (String × EntryPosition) → List Char →
    Except StoreError (List (String × EntryPosition) × List Char)
  | [], acc => .ok ([], acc)
  | (k, ep) :: rest, acc =>
    match readersLookup s ep.fragment with
    | none => .error (.Fragment "missing fragment reader")
    | some c =>
      if ep.pos + ep.size ≤ c.length then
        match compactLoop s g rest (acc ++ slice c ep.pos ep.size) with
        | .error e => .error e
        | .ok (idx, acc') => .ok ((k, ⟨g, acc.length, ep.size⟩) :: idx, acc')
      else .error .Io

/-- Model of `KvStore::compact`: a no-op unless the unreclaimed-space
counter exceeds the threshold; otherwise rewrite one record per indexed key
into fragment `fragment + 1`, swap in the new index and writer, delete all
old fragments and register the new reader. -/
def KvStore.compact (s : KvStore) : Except StoreError KvStore :=
  if COMPACTION_THRESHOLD < s.unreclaimed_space then
    match compactLoop s (newFragId s) s.index [] with
    | .error e => .error e
    | .ok (idx, content) =>
      .ok { unreclaimed_space := 0, fragment := newFragId s, active_content := content,
            others := [], index := idx }
  else .ok s

/-- Runs the trailing `self.compact()` call of a mutating operation: on a
compaction error the engine state outside `compact` is left as it was. -/
def compactFinish (t : KvStore) : KvStore × Option StoreError :=
  match t.compact with
  | .ok r => (r, none)
  | .error e => (t, some e)

/-- State change of `KvStore::set` before its trailing compaction: append
the encoded `Set` record at the end of the active fragment, insert the new
position, and count a replaced entry as unreclaimed. -/
def setRaw (s : KvStore) (k v : String) : KvStore :=
  let buf := encodeEntry (.Set k v)
  let pos := s.active_content.length
  let ins := insertK s.index k ⟨s.fragment, pos, buf.length⟩
  { s with active_content := s.active_content ++ buf,
           index := ins.1,
           unreclaimed_space := s.unreclaimed_space +
             (match ins.2 with | some prev => prev.size | none => 0) }

def KvStore.set (s : KvStore) (k v : String) : KvStore × Option StoreError :=
  compactFinish (setRaw s k v)

/-- Model of `KvStore::get`.  Note the source looks up the reader of the
currently active fragment (`self.fragment`), not the fragment recorded in
the index entry; the model reproduces this faithfully. -/
def KvStore.get (s : KvStore) (k : String) : Except StoreError (Option String) :=
  match lookupK s.index k with
  | none => .ok none
  | some ep =>
    match readersLookup s s.fragment with
    | none => .error .Panic
    | some c =>
      if ep.pos + ep.size ≤ c.length then
        match decodeSlice (slice c ep.pos ep.size) with
        | some (.Set _ v) => .ok (some v)
        | _ => .error .Panic
      else .error .Io

/-- State change of a successful `KvStore::remove` before its trailing
compaction: the key was already removed from the index (`idx`), the `Rm`
record is appended, and both the removed entry and the new record count as
unreclaimed space. -/
def removeRaw (s : KvStore) (k : String) (idx : List (String × EntryPosition))
    (ep : EntryPosition) : KvStore :=
  let buf := encodeEntry (.Rm k)
  { s with active_content := s.active_content ++ buf,
           index := idx,
           unreclaimed_space := s.unreclaimed_space + ep.size + buf.length }

def KvStore.remove (s : KvStore) (k : String) : KvStore × Option StoreError :=
  match eraseK s.index k with
  | (_, none) => (s, some .NotFound)
  | (idx, some ep) => compactFinish (removeRaw s k idx ep)

/-- Model of `KvStore::remove` in an execution where the seek, append or
flush of the `Rm` record returns an I/O error.  The source removes the key
from the index before writing, so the shrunken index is kept while the
write itself never becomes visible (the flush failed) and the
unreclaimed-space update and trailing compaction are never reached. -/
def removeWriteFails (s : KvStore) (k : String) : KvStore × Option StoreError :=
  match eraseK s.index k with
  | (_, none) => (s, some .NotFound)
  | (idx, some _) => ({ s with index := idx }, some .Io)

/-! ### Recovery (`load_fragment`) -/

/-- Body of the record-replay loop of `load_fragment`: insert `Set`
positions, drop `Rm` keys, and count any replaced prior entry as
unreclaimed space. -/
def loadApply (f : Nat) (idx : List (String × EntryPosition)) (u : Nat) (e : LogEntry)
    (pos newPos : Nat) : List (String × EntryPosition) × Nat :=
  match e with
  | .Set k _ =>
    let ins := insertK idx k ⟨f, pos, newPos - pos⟩
    (ins.1, u + (match ins.2 with | some prev => prev.size | none => 0))
  | .Rm k =>
    let er := eraseK idx k
    (er.1, u + (match er.2 with | some prev => prev.size | none => 0))

/-- The record-replay loop of `load_fragment`, reading records one after
another while tracking the byte offset before and after each.  Fuel is a
structural termination measure; `content.length + 1` always suffices. -/
def loadLoop (f : Nat) : Nat → List Char → Nat →
    List (String × EntryPosition) → Nat →
    Option (List (String × EntryPosition) × Nat)
  | _, [], _, idx, u => some (idx, u)
  | 0, _ :: _, _, _, _ => none
  | fuel + 1, s@(_ :: _), pos, idx, u =>
    match parseEntry s with
    | none => none
    | some (e, rest) =>
      let newPos := pos + (s.length - rest.length)
      let st := loadApply f idx u e pos newPos
      loadLoop f fuel rest newPos st.1 st.2

/-- Replays one fragment's content into the shared index; returns the
updated index and this fragment's unreclaimed-space contribution
(`none` models a serde decoding error). -/
def loadContent (f : Nat) (content : List Char)
    (idx : List (String × EntryPosition)) :
    Option (List (String × EntryPosition) × Nat) :=
  loadLoop f (content.length + 1) content 0 idx 0

/-! ### Fragment file names and `open` -/

def digitChar (d : Nat) : Char := Char.ofNat (48 + d)

/-- Decimal rendering of a `Nat` without leading zeros (`format!` on a
`u64`).  Fuel-structured; `n + 1` units always suffice. -/
def natReprF : Nat → Nat → List Char → List Char
  | 0, _, acc => acc
  | fuel + 1, n, acc =>
    if n < 10 then digitChar n :: acc
    else natReprF fuel (n / 10) (digitChar (n % 10) :: acc)

def natRepr (n : Nat) : List Char := natReprF (n + 1) n []

def digitVal (c : Char) : Nat := c.toNat - 48

def isDigitC (c : Char) : Bool := 48 ≤ c.toNat && c.toNat ≤ 57

/-- Digits-only part of `str::parse::<u64>`: at least one ASCII digit and
the value must fit in a `u64`. -/
def parseDigits (l : List Char) : Option Nat :=
  if !l.isEmpty && l.all isDigitC then
    if l.foldl (fun a c => 10 * a + digitVal c) 0 < 2 ^ 64 then
      some (l.foldl (fun a c => 10 * a + digitVal c) 0)
    else none
  else none

/-- Model of `str::parse::<u64>`: an optional leading plus sign, then
decimal digits. -/
def parseU64 (l : List Char) : Option Nat :=
  match l with
  | [] => none
  | c :: t => if c = '+' then parseDigits t else parseDigits (c :: t)

/-- Model of `split('.').next()`: the file name up to the first dot. -/
def firstDotComponent (name : List Char) : List Char := name.takeWhile (· ≠ '.')

/-- Model of Rust `Path::extension`: the portion after the final dot,
none when there is no dot or when the name is a dot-file such as `.kv`
(the part before the final dot is empty). -/
def rustExtensionL (name : List Char) : Option (List Char) :=
  match name.reverse.dropWhile (· ≠ '.') with
  | [] => none
  | _ :: before =>
    if before = [] then none
    else some ((name.reverse.takeWhile (· ≠ '.')).reverse)

def fragFileName (n : Nat) : String := String.mk (natRepr n ++ '.' :: 'k' :: 'v' :: [])

/-- The fragment-loading fold of `KvStore::open`: for each retained
directory entry, parse the fragment id from the file name (fail fast with
a `Fragment` error), replay its records into the shared index, accumulate
unreclaimed space, track the maximum id and register the reader. -/
def openLoad : List (String × List Char) → List (String × EntryPosition) → Nat → Nat →
    List (Nat × List Char) →
    Except StoreError (List (String × EntryPosition) × Nat × Nat × List (Nat × List Char))
  | [], idx, u, mx, rd => .ok (idx, u, mx, rd)
  | (name, content) :: rest, idx, u, mx, rd =>
    match parseU64 (firstDotComponent name.data) with
    | none => .error (.Fragment "invalid fragment number")
    | some f =>
      match loadContent f content idx with
      | none => .error .Serde
      | some (idx', du) =>
        openLoad rest idx' (u + du) (if mx < f then f else mx) (insertK rd f content).1

/-- Model of `KvStore::open`.  The directory is a listing of file names
and contents in OS enumeration order.  Files whose extension is not `kv`
are ignored; the remaining fragments are loaded; the active fragment is
the maximum id (0 when none exists, in which case an empty fragment `0.kv`
is created); the writer opens the file named after the active id (an I/O
error if absent); finally compaction is attempted once. -/
def openModel (dir : List (String × List Char)) : Except StoreError KvStore :=
  let kvFiles := dir.filter fun p => decide (rustExtensionL p.1.data = some ('k' :: 'v' :: []))
  match openLoad kvFiles [] 0 0 [] with
  | .error e => .error e
  | .ok (idx, u, mx, rd) =>
    if rd.isEmpty then
      (KvStore.mk u mx [] [] idx).compact
    else
      match lookupK dir (fragFileName mx) with
      | none => .error .Io
      | some content =>
        (KvStore.mk u mx content (rd.filter fun p => decide (¬ p.1 = mx)) idx).compact

/-- The directory left on disk after the store handle is dropped. -/
def KvStore.dirListing (s : KvStore) : List (String × List Char) :=
  (fragFileName s.fragment, s.active_content) ::
    s.others.map fun p => (fragFileName p.1, p.2)

/-! ### Operation sequences -/

inductive Op : Type
  | set (k v : String) : Op
  | remove (k : String) : Op
  | get (k : String) : Op
deriving DecidableEq

/-- One engine operation on an exclusively owned store; an operation that
returns an error aborts the run. -/
def stepOp (s : KvStore) : Op → Except StoreError KvStore
  | .set k v =>
    match KvStore.set s k v with
    | (s', none) => .ok s'
    | (_, some e) => .error e
  | .remove k =>
    match KvStore.remove s k with
    | (s', none) => .ok s'
    | (_, some e) => .error e
  | .get k =>
    match KvStore.get s k with
    | .ok _ => .ok s
    | .error e => .error e

def run : KvStore → List Op → Except StoreError KvStore
  | s, [] => .ok s
  | s, op :: ops =>
    match stepOp s op with
    | .error e => .error e
    | .ok s' => run s' ops

/-- The abstract key state: the final map left by a sequence of
operations. -/
def specStep (m : List (String × String)) : Op → List (String × String)
  | .set k v => (insertK m k v).1
  | .remove k => (eraseK m k).1
  | .get _ => m

def specState (ops : List Op) : List (String × String) := ops.foldl specStep []

/-! ### Replay of an encoded log

`replayAll` is the mathematical form of the replay loop: a left fold over
the record list carrying the index, the unreclaimed-space counter and the
running byte offset. -/

def psize : Option EntryPosition → Nat
  | some p => p.size
  | none => 0

def replaySnoc (f : Nat) (st : List (String × EntryPosition) × Nat × Nat) (e : LogEntry) :
    List (String × EntryPosition) × Nat × Nat :=
  match e with
  | .Set k _ =>
    let ins := insertK st.1 k ⟨f, st.2.2, (encodeEntry e).length⟩
    (ins.1, st.2.1 + psize ins.2, st.2.2 + (encodeEntry e).length)
  | .Rm k =>
    let er := eraseK st.1 k
    (er.1, st.2.1 + psize er.2, st.2.2 + (encodeEntry e).length)

def replayAll (f : Nat) (es : List LogEntry) (st : List (String × EntryPosition) × Nat × Nat) :
    List (String × EntryPosition) × Nat × Nat :=
  es.foldl (replaySnoc f) st

def replayIndex (f : Nat) (es : List LogEntry) : List (String × EntryPosition) :=
  (replayAll f es ([], 0, 0)).1

/-! ### Latest-value semantics of a log -/

def latestStep (k : String) (acc : Option String) : LogEntry → Option String
  | .Set k' v => if k' = k then some v else acc
  | .Rm k' => if k' = k then none else acc

/-- The value of the latest `Set` for a key, `none` when the latest record
is a `Rm` or the key never occurs: the specification-level meaning of a
log. -/
def latestVal (es : List LogEntry) (k : String) : Option String :=
  es.foldl (latestStep k) none

/-! ### Demonstration inputs for the claims -/

def demoStore1 : KvStore := ((KvStore.mk 0 0 [] [] []).set "key1" "value1").1

/-- A directory with two fragments: `0.kv` holds the record for key `a`,
`1.kv` (the active fragment after open) holds an equally long record for
key `b`. -/
def demoDirC4 : List (String × List Char) :=
  [("0.kv", encodeEntry (.Set "a" "x")), ("1.kv", encodeEntry (.Set "b" "y"))]

/-- A store state in which key `a`'s index entry points into the read-only
fragment 0 while the active fragment 1 holds key `b`'s record at the same
byte range, with enough unreclaimed space to trigger compaction.  Such
states arise from opening a directory holding both fragments. -/
def demoStoreC3 : KvStore :=
  KvStore.mk 1000001 1 (encodeEntry (.Set "b" "y"))
    [(0, encodeEntry (.Set "a" "x"))]
    [("a", ⟨0, 0, (encodeEntry (.Set "a" "x")).length⟩),
     ("b", ⟨1, 0, (encodeEntry (.Set "b" "y")).length⟩)]

/-- Directory holding `12.kv` and `12.34.kv`: the latter's stem `12.34` is
not a valid decimal u64, yet open succeeds. -/
def demoDirC9 : List (String × List Char) := [("12.kv", []), ("12.34.kv", [])]

def entryKey : LogEntry → String
  | .Set k _ => k
  | .Rm k => k

/-! ### The single-fragment store invariant -/

/-- Every store reachable from a fresh directory satisfies this: exactly
one fragment (the active one) exists, whose content is the encoding of a
record list whose replay is the in-memory index and whose latest-value
semantics is the abstract key state `m`. -/
def Inv (s : KvStore) (m : List (String × String)) : Prop :=
  s.others = [] ∧ s.fragment < 2 ^ 64 ∧ (m.map Prod.fst).Nodup ∧
  ∃ es : List LogEntry,
    s.active_content = encodeAll es ∧
    s.index = replayIndex s.fragment es ∧
    ∀ k, latestVal es k = lookupK m k

def demoOps : List Op :=
  [.set "key1" "value1", .set "key2" "value2", .remove "key2", .get "key1"]

def demoRunStore : KvStore :=
  (((((KvStore.mk 0 0 [] [] []).set "key1" "value1").1.set "key2" "value2").1.remove
      "key2").1)

def demoReopenStore : KvStore :=
  (openModel demoRunStore.dirListing).toOption.getD (KvStore.mk 0 0 [] [] [])

/-! ### Theorems -/

/-- Replacing under a head pair with a different key keeps the head in place. -/
theorem insertK_cons_ne {κ α : Type} [DecidableEq κ] (k₀ k : κ) (e : α) (t : List (κ × α))
    (v : α) (h : ¬ k₀ = k) :
    insertK ((k₀, e) :: t) k v = ((k₀, e) :: (insertK t k v).1, (insertK t k v).2) := by
  simp only [insertK, if_neg h]

theorem eraseK_cons_ne {κ α : Type} [DecidableEq κ] (k₀ k : κ) (e : α) (t : List (κ × α))
    (h : ¬ k₀ = k) :
    eraseK ((k₀, e) :: t) k = ((k₀, e) :: (eraseK t k).1, (eraseK t k).2) := by
  simp only [eraseK, if_neg h]

theorem insertK_prev {κ α : Type} [DecidableEq κ] (l : List (κ × α)) (k : κ) (v : α) :
    (insertK l k v).2 = lookupK l k := by
  induction l with
  | nil => rfl
  | cons p t ih =>
    obtain ⟨k', v'⟩ := p
    by_cases h : k' = k
    · simp [insertK, lookupK, h]
    · rw [insertK_cons_ne k' k v' t v h]
      simp [lookupK, if_neg h, ih]

theorem eraseK_prev {κ α : Type} [DecidableEq κ] (l : List (κ × α)) (k : κ) :
    (eraseK l k).2 = lookupK l k := by
  induction l with
  | nil => rfl
  | cons p t ih =>
    obtain ⟨k', v'⟩ := p
    by_cases h : k' = k
    · simp [eraseK, lookupK, h]
    · rw [eraseK_cons_ne k' k v' t h]
      simp [lookupK, if_neg h, ih]

theorem lookupK_insertK_self {κ α : Type} [DecidableEq κ] (l : List (κ × α)) (k : κ) (v : α) :
    lookupK (insertK l k v).1 k = some v := by
  induction l with
  | nil => simp [insertK, lookupK]
  | cons p t ih =>
    obtain ⟨k', v'⟩ := p
    by_cases h : k' = k
    · simp [insertK, lookupK, h]
    · rw [insertK_cons_ne k' k v' t v h]
      simp [lookupK, if_neg h, ih]

theorem lookupK_insertK_ne {κ α : Type} [DecidableEq κ] (l : List (κ × α)) (k k' : κ) (v : α)
    (h : ¬ k' = k) : lookupK (insertK l k v).1 k' = lookupK l k' := by
  induction l with
  | nil =>
    have h' : ¬ k = k' := fun he => h he.symm
    simp [insertK, lookupK, if_neg h']
  | cons p t ih =>
    obtain ⟨k₀, v₀⟩ := p
    by_cases h0 : k₀ = k
    · subst h0
      have h' : ¬ k₀ = k' := fun he => h (he ▸ rfl)
      simp [insertK, lookupK, if_neg h']
    · rw [insertK_cons_ne k₀ k v₀ t v h0]
      by_cases h1 : k₀ = k'
      · simp [lookupK, h1]
      · simp [lookupK, if_neg h1, ih]

theorem lookupK_eraseK_ne {κ α : Type} [DecidableEq κ] (l : List (κ × α)) (k k' : κ)
    (h : ¬ k' = k) : lookupK (eraseK l k).1 k' = lookupK l k' := by
  induction l with
  | nil => rfl
  | cons p t ih =>
    obtain ⟨k₀, v₀⟩ := p
    by_cases h0 : k₀ = k
    · subst h0
      have h' : ¬ k₀ = k' := fun he => h (he ▸ rfl)
      simp [eraseK, lookupK, if_neg h']
    · rw [eraseK_cons_ne k₀ k v₀ t h0]
      by_cases h1 : k₀ = k'
      · simp [lookupK, h1]
      · simp [lookupK, if_neg h1, ih]

theorem lookupK_eq_none_iff {κ α : Type} [DecidableEq κ] (l : List (κ × α)) (k : κ) :
    lookupK l k = none ↔ k ∉ l.map Prod.fst := by
  induction l with
  | nil => simp [lookupK]
  | cons p t ih =>
    obtain ⟨k', v'⟩ := p
    by_cases h : k' = k
    · simp [lookupK, h]
    · simp only [lookupK, if_neg h, ih, List.map_cons, List.mem_cons, not_or]
      constructor
      · intro hk
        exact ⟨fun he => h he.symm, hk⟩
      · intro hk
        exact hk.2

theorem insertK_of_lookup_none {κ α : Type} [DecidableEq κ] (l : List (κ × α)) (k : κ) (v : α)
    (h : lookupK l k = none) : insertK l k v = (l ++ [(k, v)], none) := by
  induction l with
  | nil => rfl
  | cons p t ih =>
    obtain ⟨k', v'⟩ := p
    by_cases h0 : k' = k
    · simp [lookupK, h0] at h
    · simp only [lookupK, if_neg h0] at h
      rw [insertK_cons_ne k' k v' t v h0, ih h]
      simp

theorem keys_insertK_of_lookup_some {κ α : Type} [DecidableEq κ] (l : List (κ × α)) (k : κ)
    (v w : α) (h : lookupK l k = some w) :
    ((insertK l k v).1).map Prod.fst = l.map Prod.fst := by
  induction l with
  | nil => simp [lookupK] at h
  | cons p t ih =>
    obtain ⟨k', v'⟩ := p
    by_cases h0 : k' = k
    · simp [insertK, h0]
    · simp only [lookupK, if_neg h0] at h
      rw [insertK_cons_ne k' k v' t v h0]
      simp [ih h]

theorem nodup_keys_insertK {κ α : Type} [DecidableEq κ] (l : List (κ × α)) (k : κ) (v : α)
    (hnd : (l.map Prod.fst).Nodup) : (((insertK l k v).1).map Prod.fst).Nodup := by
  cases hn : lookupK l k with
  | none =>
    rw [insertK_of_lookup_none l k v hn]
    have hk : k ∉ l.map Prod.fst := (lookupK_eq_none_iff l k).mp hn
    simp only [List.map_append, List.nodup_append, List.map_cons, List.map_nil,
      List.nodup_cons, List.nodup_nil]
    exact ⟨hnd, ⟨by simp, trivial⟩, by
      intro a ha
      simp only [List.mem_singleton]
      rintro rfl
      exact hk ha⟩
  | some w =>
    rw [keys_insertK_of_lookup_some l k v w hn]
    exact hnd

theorem keys_eraseK_sublist {κ α : Type} [DecidableEq κ] (l : List (κ × α)) (k : κ) :
    List.Sublist (((eraseK l k).1).map Prod.fst) (l.map Prod.fst) := by
  induction l with
  | nil => simp [eraseK]
  | cons p t ih =>
    obtain ⟨k', v'⟩ := p
    by_cases h : k' = k
    · simp only [eraseK, if_pos h, List.map_cons]
      exact List.sublist_cons_of_sublist _ (List.Sublist.refl _)
    · rw [eraseK_cons_ne k' k v' t h]
      simpa using List.Sublist.cons₂ k' ih

theorem nodup_keys_eraseK {κ α : Type} [DecidableEq κ] (l : List (κ × α)) (k : κ)
    (hnd : (l.map Prod.fst).Nodup) : (((eraseK l k).1).map Prod.fst).Nodup :=
  hnd.sublist (keys_eraseK_sublist l k)

theorem lookupK_of_mem {κ α : Type} [DecidableEq κ] (l : List (κ × α)) (k : κ) (v : α)
    (hm : (k, v) ∈ l) (hnd : (l.map Prod.fst).Nodup) : lookupK l k = some v := by
  induction l with
  | nil => simp at hm
  | cons p t ih =>
    obtain ⟨k', v'⟩ := p
    simp only [List.map_cons, List.nodup_cons] at hnd
    rcases List.mem_cons.mp hm with he | ht
    · obtain ⟨hk, hv⟩ := Prod.mk.injEq .. ▸ he
      subst hk; subst hv
      simp [lookupK]
    · have hk : ¬ k' = k := by
        rintro rfl
        exact hnd.1 (List.mem_map.mpr ⟨(k', v), ht, rfl⟩)
      simp [lookupK, if_neg hk, ih ht hnd.2]

theorem lookupK_eraseK_self {κ α : Type} [DecidableEq κ] (l : List (κ × α)) (k : κ)
    (hnd : (l.map Prod.fst).Nodup) : lookupK (eraseK l k).1 k = none := by
  induction l with
  | nil => rfl
  | cons p t ih =>
    obtain ⟨k', v'⟩ := p
    simp only [List.map_cons, List.nodup_cons] at hnd
    by_cases h : k' = k
    · subst h
      simp only [eraseK, if_pos rfl]
      exact (lookupK_eq_none_iff t k').mpr hnd.1
    · rw [eraseK_cons_ne k' k v' t h]
      simp [lookupK, if_neg h, ih hnd.2]

/-! ### Codec roundtrip -/

theorem hexVal?_hexDigitChar : ∀ n < 16, hexVal? (hexDigitChar n) = some n := by decide

theorem char_eq_ofNat_of_toNat {c : Char} {n : Nat} (h : c.toNat = n) : c = Char.ofNat n := by
  rw [← h, Char.ofNat_toNat]

theorem escapeChar_plain (c : Char) (hq : ¬ c = '"') (hb : ¬ c = '\\')
    (hlt : ¬ c.toNat < 32) : escapeChar c = [c] := by
  simp [escapeChar, if_neg hq, if_neg hb, hlt]

/-- Every escaped character round-trips through `parseEsc`. -/
theorem escapeChar_esc (c : Char) (h : c = '"' ∨ c = '\\' ∨ c.toNat < 32) :
    ∃ esc, escapeChar c = '\\' :: esc ∧ ∀ X, parseEsc (esc ++ X) = some (c, X) := by
  rcases h with hq | hb | hlt
  · subst hq
    exact ⟨['"'], by decide, fun X => rfl⟩
  · subst hb
    exact ⟨['\\'], by decide, fun X => rfl⟩
  · by_cases hq : c = '"'
    · subst hq
      exact ⟨['"'], by decide, fun X => rfl⟩
    · by_cases hb : c = '\\'
      · subst hb
        exact ⟨['\\'], by decide, fun X => rfl⟩
      · by_cases h8 : c.toNat = 8
        · rw [char_eq_ofNat_of_toNat h8]
          exact ⟨['b'], by decide, fun X => rfl⟩
        · by_cases h9 : c.toNat = 9
          · rw [char_eq_ofNat_of_toNat h9]
            exact ⟨['t'], by decide, fun X => rfl⟩
          · by_cases h10 : c.toNat = 10
            · rw [char_eq_ofNat_of_toNat h10]
              exact ⟨['n'], by decide, fun X => rfl⟩
            · by_cases h12 : c.toNat = 12
              · rw [char_eq_ofNat_of_toNat h12]
                exact ⟨['f'], by decide, fun X => rfl⟩
              · by_cases h13 : c.toNat = 13
                · rw [char_eq_ofNat_of_toNat h13]
                  exact ⟨['r'], by decide, fun X => rfl⟩
                · refine ⟨['u', '0', '0', hexDigitChar (c.toNat / 16),
                    hexDigitChar (c.toNat % 16)], ?_, ?_⟩
                  · simp [escapeChar, if_neg hq, if_neg hb, if_pos hlt, h8, h9, h10, h12, h13]
                  · intro X
                    have hhi : hexVal? (hexDigitChar (c.toNat / 16)) = some (c.toNat / 16) :=
                      hexVal?_hexDigitChar _ (Nat.div_lt_of_lt_mul (by omega))
                    have hlo : hexVal? (hexDigitChar (c.toNat % 16)) = some (c.toNat % 16) :=
                      hexVal?_hexDigitChar _ (Nat.mod_lt _ (by omega))
                    have hquad : hexQuad '0' '0' (hexDigitChar (c.toNat / 16))
                        (hexDigitChar (c.toNat % 16)) = some c.toNat := by
                      simp only [hexQuad, show hexVal? '0' = some 0 from by decide, hhi, hlo]
                      congr 1
                      omega
                    show parseEsc ('u' :: '0' :: '0' :: hexDigitChar (c.toNat / 16)
                      :: hexDigitChar (c.toNat % 16) :: X) = some (c, X)
                    rw [parseEsc]
                    simp [hquad, Char.ofNat_toNat]

theorem parseJsonStringF_escape (s : List Char) : ∀ (rest : List Char) (fuel : Nat),
    (escapeString s ++ '"' :: rest).length ≤ fuel →
    parseJsonStringF fuel (escapeString s ++ '"' :: rest) = some (s, rest) := by
  induction s with
  | nil =>
    intro rest fuel hf
    simp only [escapeString, List.map_nil, List.flatten_nil, List.nil_append] at hf ⊢
    obtain ⟨f, rfl⟩ : ∃ f, fuel = f + 1 := ⟨fuel - 1, by simp at hf; omega⟩
    simp [parseJsonStringF]
  | cons c t ih =>
    intro rest fuel hf
    have hesc : escapeString (c :: t) ++ '"' :: rest
        = escapeChar c ++ (escapeString t ++ '"' :: rest) := by
      simp [escapeString]
    rw [hesc] at hf ⊢
    by_cases hpl : ¬ c = '"' ∧ ¬ c = '\\' ∧ ¬ c.toNat < 32
    · obtain ⟨hq, hb, hlt⟩ := hpl
      rw [escapeChar_plain c hq hb hlt] at hf ⊢
      rw [show ([c] ++ (escapeString t ++ '"' :: rest) : List Char)
        = c :: (escapeString t ++ '"' :: rest) from rfl] at hf ⊢
      obtain ⟨f, rfl⟩ : ∃ f, fuel = f + 1 := ⟨fuel - 1, by simp at hf; omega⟩
      rw [parseJsonStringF, if_neg hq, if_neg hb, if_neg hlt]
      simp [ih rest f (by simp at hf ⊢; omega)]
    · have hor : c = '"' ∨ c = '\\' ∨ c.toNat < 32 := by tauto
      obtain ⟨esc, hec, hpe⟩ := escapeChar_esc c hor
      rw [hec] at hf ⊢
      rw [show (('\\' :: esc) ++ (escapeString t ++ '"' :: rest) : List Char)
        = '\\' :: (esc ++ (escapeString t ++ '"' :: rest)) from rfl] at hf ⊢
      obtain ⟨f, rfl⟩ : ∃ f, fuel = f + 1 := ⟨fuel - 1, by simp at hf; omega⟩
      rw [parseJsonStringF, if_neg (by decide : ¬ ('\\' : Char) = '"'),
        if_pos (rfl : ('\\' : Char) = '\\'), hpe (escapeString t ++ '"' :: rest)]
      simp [ih rest f (by simp at hf ⊢; omega)]

/-- The JSON string produced for `s` decodes back to `s`, leaving the
stream after the closing quote untouched. -/
theorem parseJsonString_escape (s rest : List Char) :
    parseJsonString (escapeString s ++ '"' :: rest) = some (s, rest) :=
  parseJsonStringF_escape s rest _ (Nat.le_refl _)

theorem parseLit_append (lit : List Char) : ∀ s, parseLit lit (lit ++ s) = some s := by
  induction lit with
  | nil => intro s; rfl
  | cons c t ih => intro s; simp [parseLit, ih]

theorem parseLit_setHead_rmHead (X : List Char) : parseLit setHead (rmHead ++ X) = none := rfl

/-- Decoding an encoded record recovers it and leaves the rest of the
stream untouched. -/
theorem parseEntry_encode (e : LogEntry) (rest : List Char) :
    parseEntry (encodeEntry e ++ rest) = some (e, rest) := by
  cases e with
  | Set k v =>
    simp only [encodeEntry, List.append_assoc, List.cons_append]
    simp only [parseEntry, parseLit_append, parseJsonString_escape, parseLit_setHead_rmHead]
  | Rm k =>
    simp only [encodeEntry, List.append_assoc, List.cons_append]
    simp only [parseEntry, parseLit_append, parseJsonString_escape, parseLit_setHead_rmHead]

theorem decodeSlice_encode (e : LogEntry) : decodeSlice (encodeEntry e) = some e := by
  have h := parseEntry_encode e []
  rw [List.append_nil] at h
  simp [decodeSlice, h]

theorem encodeEntry_length_pos (e : LogEntry) : 1 ≤ (encodeEntry e).length := by
  have hs : 0 < setHead.length := by decide
  have hr : 0 < rmHead.length := by decide
  cases e <;> simp [encodeEntry] <;> omega

theorem replayAll_append (f : Nat) (es1 es2 : List LogEntry)
    (st : List (String × EntryPosition) × Nat × Nat) :
    replayAll f (es1 ++ es2) st = replayAll f es2 (replayAll f es1 st) :=
  List.foldl_append ..

theorem replayAll_offset (f : Nat) (es : List LogEntry) :
    ∀ st, (replayAll f es st).2.2 = st.2.2 + (encodeAll es).length := by
  induction es with
  | nil => intro st; simp [replayAll, encodeAll]
  | cons e es ih =>
    intro st
    have h1 : replayAll f (e :: es) st = replayAll f es (replaySnoc f st e) := rfl
    rw [h1, ih]
    have h2 : (replaySnoc f st e).2.2 = st.2.2 + (encodeEntry e).length := by
      cases e <;> simp [replaySnoc]
    rw [h2]
    simp [encodeAll]
    omega

theorem loadApply_replaySnoc (f : Nat) (idx : List (String × EntryPosition)) (u pos : Nat)
    (e : LogEntry) :
    loadApply f idx u e pos (pos + (encodeEntry e).length)
      = ((replaySnoc f (idx, u, pos) e).1, (replaySnoc f (idx, u, pos) e).2.1) := by
  cases e with
  | Set k v =>
    simp only [loadApply, replaySnoc, Nat.add_sub_cancel_left]
    cases (insertK idx k ⟨f, pos, (encodeEntry (LogEntry.Set k v)).length⟩).2 <;> rfl
  | Rm k =>
    simp only [loadApply, replaySnoc]
    cases (eraseK idx k).2 <;> rfl

/-- The replay loop of `load_fragment`, run on the encoding of a record
list, computes exactly the replay fold (given sufficient fuel). -/
theorem loadLoop_encodeAll (f : Nat) (es : List LogEntry) :
    ∀ (fuel pos u : Nat) (idx : List (String × EntryPosition)),
    (encodeAll es).length < fuel →
    loadLoop f fuel (encodeAll es) pos idx u
      = some ((replayAll f es (idx, u, pos)).1, (replayAll f es (idx, u, pos)).2.1) := by
  induction es with
  | nil =>
    intro fuel pos u idx hf
    simp [encodeAll, replayAll, loadLoop]
  | cons e es ih =>
    intro fuel pos u idx hf
    have henc : encodeAll (e :: es) = encodeEntry e ++ encodeAll es := by
      simp [encodeAll]
    rw [henc] at hf ⊢
    have hlen := encodeEntry_length_pos e
    obtain ⟨fu, rfl⟩ : ∃ fu, fuel = fu + 1 := ⟨fuel - 1, by simp at hf; omega⟩
    obtain ⟨c, cs, hE⟩ : ∃ c cs, encodeEntry e = c :: cs := by
      cases hEE : encodeEntry e with
      | nil => rw [hEE] at hlen; simp at hlen
      | cons c cs => exact ⟨c, cs, rfl⟩
    rw [hE, List.cons_append, loadLoop, ← List.cons_append, ← hE,
      parseEntry_encode e (encodeAll es)]
    have hnp : (encodeEntry e ++ encodeAll es).length - (encodeAll es).length
        = (encodeEntry e).length := by
      simp
    simp only [hnp, loadApply_replaySnoc]
    rw [ih fu (pos + (encodeEntry e).length) _ _ (by simp at hf ⊢; omega)]
    have hfold : replayAll f (e :: es) (idx, u, pos)
        = replayAll f es (replaySnoc f (idx, u, pos) e) := rfl
    rw [hfold]
    have hsn : replaySnoc f (idx, u, pos) e
        = ((replaySnoc f (idx, u, pos) e).1, (replaySnoc f (idx, u, pos) e).2.1,
            pos + (encodeEntry e).length) := by
      cases e <;> simp [replaySnoc]
    rw [← hsn]

/-- `loadContent` on the encoding of a record list is exactly the replay
fold from the given index. -/
theorem loadContent_encodeAll (f : Nat) (es : List LogEntry)
    (idx : List (String × EntryPosition)) :
    loadContent f (encodeAll es) idx
      = some ((replayAll f es (idx, 0, 0)).1, (replayAll f es (idx, 0, 0)).2.1) :=
  loadLoop_encodeAll f es _ 0 0 idx (Nat.lt_succ_self _)

/-! ### Slice lemmas -/

theorem slice_append_self (a b : List Char) : slice (a ++ b) a.length b.length = b := by
  simp [slice, List.drop_left, List.take_length]

theorem slice_append_of_le (a b : List Char) (p n : Nat) (h : p + n ≤ a.length) :
    slice (a ++ b) p n = slice a p n := by
  simp only [slice]
  rw [List.drop_append_eq_append_drop]
  have h1 : p - a.length = 0 := by omega
  rw [h1, List.drop_zero, List.take_append_eq_append_take]
  have h2 : n - (a.drop p).length = 0 := by
    simp [List.length_drop]
    omega
  rw [h2, List.take_zero, List.append_nil]

theorem slice_length (l : List Char) (p n : Nat) (h : p + n ≤ l.length) :
    (slice l p n).length = n := by
  simp [slice, List.length_take, List.length_drop]
  omega

theorem latestVal_append (es1 es2 : List LogEntry) (k : String) :
    latestVal (es1 ++ es2) k = es2.foldl (latestStep k) (latestVal es1 k) :=
  List.foldl_append ..

theorem encodeAll_append (es1 es2 : List LogEntry) :
    encodeAll (es1 ++ es2) = encodeAll es1 ++ encodeAll es2 := by
  simp [encodeAll]

/-- Correctness of log replay: the index obtained by replaying an encoded
log has no duplicate keys, and every entry locates, inside the encoded log
and with the replayed fragment id, exactly the encoded latest `Set` record
of its key; keys without entries have no live value. -/
theorem replay_spec (f : Nat) (es : List LogEntry) :
    ((replayIndex f es).map Prod.fst).Nodup ∧
    ∀ k : String,
      (∀ ep, lookupK (replayIndex f es) k = some ep →
        ep.fragment = f ∧ ep.pos + ep.size ≤ (encodeAll es).length ∧
        ∃ v, latestVal es k = some v ∧
          slice (encodeAll es) ep.pos ep.size = encodeEntry (.Set k v)) ∧
      (lookupK (replayIndex f es) k = none → latestVal es k = none) := by
  induction es using List.reverseRecOn with
  | nil =>
    refine ⟨by simp [replayIndex, replayAll], fun k => ⟨fun ep hep => ?_, fun _ => rfl⟩⟩
    simp [replayIndex, replayAll, lookupK] at hep
  | append_singleton es a ih =>
    obtain ⟨ihnd, ihk⟩ := ih
    have hoff : (replayAll f es ([], 0, 0)).2.2 = (encodeAll es).length := by
      rw [replayAll_offset]
      simp
    have hidx : replayIndex f (es ++ [a])
        = (replaySnoc f (replayAll f es ([], 0, 0)) a).1 := by
      simp [replayIndex, replayAll_append, replayAll]
    have henc := encodeAll_append es [a]
    have henc1 : encodeAll [a] = encodeEntry a := by simp [encodeAll]
    cases a with
    | Set k0 v0 =>
      have hsn : (replaySnoc f (replayAll f es ([], 0, 0)) (.Set k0 v0)).1
          = (insertK (replayIndex f es) k0
              ⟨f, (encodeAll es).length, (encodeEntry (.Set k0 v0)).length⟩).1 := by
        simp only [replaySnoc, replayIndex]
        rw [hoff]
      rw [hidx, hsn]
      refine ⟨nodup_keys_insertK _ _ _ ihnd, fun k => ⟨fun ep hep => ?_, fun hnone => ?_⟩⟩
      · by_cases hk : k0 = k
        · subst hk
          rw [lookupK_insertK_self] at hep
          obtain rfl : ep = ⟨f, (encodeAll es).length, (encodeEntry (.Set k0 v0)).length⟩ :=
            (Option.some.injEq .. ▸ hep).symm
          refine ⟨rfl, ?_, v0, ?_, ?_⟩
          · rw [henc, henc1]
            simp
          · rw [latestVal_append]
            simp [latestStep]
          · rw [henc, henc1, slice_append_self]
        · rw [lookupK_insertK_ne _ _ _ _ (fun he => hk he.symm)] at hep
          obtain ⟨hf, hb, v, hv, hs⟩ := (ihk k).1 ep hep
          refine ⟨hf, ?_, v, ?_, ?_⟩
          · rw [henc, List.length_append]
            omega
          · rw [latestVal_append]
            simp [latestStep, hv, hk]
          · rw [henc, slice_append_of_le _ _ _ _ hb, hs]
      · by_cases hk : k0 = k
        · subst hk
          rw [lookupK_insertK_self] at hnone
          exact absurd hnone (by simp)
        · rw [lookupK_insertK_ne _ _ _ _ (fun he => hk he.symm)] at hnone
          rw [latestVal_append]
          simp [latestStep, hk, (ihk k).2 hnone]
    | Rm k0 =>
      have hsn : (replaySnoc f (replayAll f es ([], 0, 0)) (.Rm k0)).1
          = (eraseK (replayIndex f es) k0).1 := by
        simp [replaySnoc, replayIndex]
      rw [hidx, hsn]
      refine ⟨nodup_keys_eraseK _ _ ihnd, fun k => ⟨fun ep hep => ?_, fun hnone => ?_⟩⟩
      · by_cases hk : k0 = k
        · subst hk
          rw [lookupK_eraseK_self _ _ ihnd] at hep
          exact absurd hep (by simp)
        · rw [lookupK_eraseK_ne _ _ _ (fun he => hk he.symm)] at hep
          obtain ⟨hf, hb, v, hv, hs⟩ := (ihk k).1 ep hep
          refine ⟨hf, ?_, v, ?_, ?_⟩
          · rw [henc, List.length_append]
            omega
          · rw [latestVal_append]
            simp [latestStep, hv, hk]
          · rw [henc, slice_append_of_le _ _ _ _ hb, hs]
      · by_cases hk : k0 = k
        · subst hk
          rw [latestVal_append]
          simp [latestStep]
        · rw [lookupK_eraseK_ne _ _ _ (fun he => hk he.symm)] at hnone
          rw [latestVal_append]
          simp [latestStep, hk, (ihk k).2 hnone]

/-! ### Compaction: pointwise copy correctness -/

/-- A successful compaction copy loop keeps absent keys absent and
repositions every present entry into the new content with its bytes copied
verbatim (find-first lookup is preserved positionally, so no key
disjointness is needed). -/
theorem compactLoop_lookup (s : KvStore) (g : Nat) :
    ∀ (entries : List (String × EntryPosition)) (acc : List Char)
      (idx' : List (String × EntryPosition)) (full : List Char),
    compactLoop s g entries acc = .ok (idx', full) →
    (∃ ext, full = acc ++ ext) ∧
    (∀ k, lookupK entries k = none → lookupK idx' k = none) ∧
    (∀ k ep, lookupK entries k = some ep →
      ∃ c p, readersLookup s ep.fragment = some c ∧
        ep.pos + ep.size ≤ c.length ∧
        lookupK idx' k = some ⟨g, p, ep.size⟩ ∧
        p + ep.size ≤ full.length ∧
        slice full p ep.size = slice c ep.pos ep.size) := by
  intro entries
  induction entries with
  | nil =>
    intro acc idx' full h
    simp only [compactLoop, Except.ok.injEq, Prod.mk.injEq] at h
    obtain ⟨h1, h2⟩ := h
    subst h1
    subst h2
    exact ⟨⟨[], by simp⟩, fun k _ => rfl, fun k ep hk => by simp [lookupK] at hk⟩
  | cons p0 rest ih =>
    obtain ⟨k0, ep0⟩ := p0
    intro acc idx' full h
    rw [compactLoop] at h
    cases hrl : readersLookup s ep0.fragment with
    | none => rw [hrl] at h; exact absurd h (by simp)
    | some c0 =>
      rw [hrl] at h
      simp only [] at h
      by_cases hbd : ep0.pos + ep0.size ≤ c0.length
      · rw [if_pos hbd] at h
        cases hrec : compactLoop s g rest (acc ++ slice c0 ep0.pos ep0.size) with
        | error e => rw [hrec] at h; exact absurd h (by simp)
        | ok pr =>
          obtain ⟨idx1, full1⟩ := pr
          rw [hrec] at h
          simp only [Except.ok.injEq, Prod.mk.injEq] at h
          obtain ⟨h1, h2⟩ := h
          subst h1
          subst h2
          obtain ⟨⟨ext, hext⟩, habs, hpres⟩ :=
            ih (acc ++ slice c0 ep0.pos ep0.size) idx1 full1 hrec
          have hbuflen : (slice c0 ep0.pos ep0.size).length = ep0.size :=
            slice_length _ _ _ hbd
          refine ⟨⟨slice c0 ep0.pos ep0.size ++ ext, by rw [hext]; simp⟩, ?_, ?_⟩
          · intro k hk
            by_cases hk0 : k0 = k
            · simp [lookupK, hk0] at hk
            · simp only [lookupK, if_neg hk0] at hk ⊢
              exact habs k hk
          · intro k ep hk
            by_cases hk0 : k0 = k
            · subst hk0
              simp only [lookupK, eq_self_iff_true, if_true, Option.some.injEq] at hk
              subst hk
              refine ⟨c0, acc.length, hrl, hbd, by simp [lookupK], ?_, ?_⟩
              · rw [hext]
                simp only [List.length_append, hbuflen]
                omega
              · rw [hext]
                rw [slice_append_of_le (acc ++ slice c0 ep0.pos ep0.size) ext _ _
                  (by simp [hbuflen])]
                have hsl := slice_append_self acc (slice c0 ep0.pos ep0.size)
                rw [hbuflen] at hsl
                exact hsl
            · simp only [lookupK, if_neg hk0] at hk ⊢
              exact hpres k ep hk
      · rw [if_neg hbd] at h
        exact absurd h (by simp)

/-! ### Helpers for the engine operations -/

theorem readersLookup_active (s : KvStore) :
    readersLookup s s.fragment = some s.active_content := by
  simp [readersLookup]

theorem get_of_absent (s : KvStore) (k : String) (hl : lookupK s.index k = none) :
    s.get k = .ok none := by
  rw [KvStore.get, hl]

theorem get_of_entry (s : KvStore) (k k' v : String) (ep : EntryPosition)
    (hl : lookupK s.index k = some ep)
    (hbd : ep.pos + ep.size ≤ s.active_content.length)
    (hs : slice s.active_content ep.pos ep.size = encodeEntry (.Set k' v)) :
    s.get k = .ok (some v) := by
  rw [KvStore.get, hl]
  simp only []
  rw [readersLookup_active]
  simp only []
  rw [if_pos hbd, hs, decodeSlice_encode]

theorem compactFinish_ok (t : KvStore) (h : (compactFinish t).2 = none) :
    t.compact = .ok (compactFinish t).1 := by
  unfold compactFinish at h ⊢
  cases hc : t.compact with
  | ok r => simp
  | error e => rw [hc] at h; simp at h

/-- Unfolding a successful compaction run. -/
theorem compact_ok_cases (t r : KvStore) (h : t.compact = .ok r) :
    (¬ COMPACTION_THRESHOLD < t.unreclaimed_space ∧ r = t) ∨
    (COMPACTION_THRESHOLD < t.unreclaimed_space ∧
      ∃ idx content, compactLoop t (newFragId t) t.index [] = .ok (idx, content) ∧
        r = ⟨0, newFragId t, content, [], idx⟩) := by
  rw [KvStore.compact] at h
  by_cases ht : COMPACTION_THRESHOLD < t.unreclaimed_space
  · rw [if_pos ht] at h
    refine .inr ⟨ht, ?_⟩
    cases hcl : compactLoop t (newFragId t) t.index [] with
    | error e => rw [hcl] at h; exact absurd h (by simp)
    | ok pr =>
      obtain ⟨idx, content⟩ := pr
      rw [hcl] at h
      simp only [Except.ok.injEq] at h
      exact ⟨idx, content, rfl, h.symm⟩
  · rw [if_neg ht] at h
    simp only [Except.ok.injEq] at h
    exact .inl ⟨ht, h.symm⟩

/-! ### Claim C1 -/

/-- C1: for every key K and value V, if `set(K, V)` succeeds on a store,
then an immediately following `get(K)` on that store returns `Some(V)`. -/
theorem set_then_get (s : KvStore) (k v : String)
    (h : (KvStore.set s k v).2 = none) :
    (KvStore.set s k v).1.get k = .ok (some v) := by
  have hok : (setRaw s k v).compact = .ok (KvStore.set s k v).1 := compactFinish_ok _ h
  have hlook : lookupK (setRaw s k v).index k
      = some ⟨s.fragment, s.active_content.length, (encodeEntry (.Set k v)).length⟩ :=
    lookupK_insertK_self s.index k _
  have hslice : slice (setRaw s k v).active_content s.active_content.length
      (encodeEntry (.Set k v)).length = encodeEntry (.Set k v) :=
    slice_append_self s.active_content (encodeEntry (.Set k v))
  rcases compact_ok_cases _ _ hok with ⟨-, hr⟩ | ⟨-, idx', content', hcl, hr⟩
  · rw [hr]
    refine get_of_entry _ k k v _ hlook ?_ hslice
    show s.active_content.length + (encodeEntry (.Set k v)).length
        ≤ (s.active_content ++ encodeEntry (.Set k v)).length
    simp
  · obtain ⟨-, -, hpres⟩ := compactLoop_lookup _ _ _ _ _ _ hcl
    obtain ⟨c, p, hrd, hbd, hlook', hbd', hs⟩ := hpres k _ hlook
    have hact : readersLookup (setRaw s k v) s.fragment
        = some ((setRaw s k v).active_content) := readersLookup_active (setRaw s k v)
    have hc' : c = (setRaw s k v).active_content :=
      Option.some.inj (hrd.symm.trans hact)
    rw [hr]
    refine get_of_entry _ k k v _ hlook' hbd' ?_
    rw [hs, hc']
    exact hslice

/-- Witness for C1 at a concrete store and key. -/
theorem set_then_get_witness :
    ((KvStore.mk 0 0 [] [] []).set "key1" "value1").2 = none ∧
    ((KvStore.mk 0 0 [] [] []).set "key1" "value1").1.get "key1"
      = .ok (some "value1") :=
  ⟨by decide, set_then_get (KvStore.mk 0 0 [] [] []) "key1" "value1" (by decide)⟩

/-! ### Claim C5 -/

/-- C5: for every key K, if `remove(K)` succeeds, then an immediately
following `get(K)` returns `None` (stated for stores whose index, like any
`HashMap`, has no duplicate keys). -/
theorem remove_then_get (s : KvStore) (k : String)
    (hnd : (s.index.map Prod.fst).Nodup)
    (h : (KvStore.remove s k).2 = none) :
    (KvStore.remove s k).1.get k = .ok none := by
  cases her : eraseK s.index k with
  | mk idx prev =>
    cases prev with
    | none =>
      have hrm : KvStore.remove s k = (s, some .NotFound) := by
        rw [KvStore.remove, her]
      rw [hrm] at h
      simp at h
    | some ep =>
      have hrm : KvStore.remove s k = compactFinish (removeRaw s k idx ep) := by
        rw [KvStore.remove, her]
      rw [hrm] at h ⊢
      have hok := compactFinish_ok _ h
      have hidx : lookupK idx k = none := by
        have hh := lookupK_eraseK_self s.index k hnd
        rw [her] at hh
        exact hh
      rcases compact_ok_cases _ _ hok with ⟨-, hr⟩ | ⟨-, idx', content', hcl, hr⟩
      · rw [hr]
        exact get_of_absent _ k hidx
      · obtain ⟨-, habs, -⟩ := compactLoop_lookup _ _ _ _ _ _ hcl
        rw [hr]
        exact get_of_absent _ k (habs k hidx)

/-- Witness for C5 at a concrete store holding the removed key. -/
theorem remove_then_get_witness :
    (demoStore1.remove "key1").2 = none ∧
    (demoStore1.remove "key1").1.get "key1" = .ok none :=
  ⟨by decide, remove_then_get demoStore1 "key1" (by decide) (by decide)⟩

/-! ### Claim C6 -/

/-- C6: `remove(K)` on a key absent from the index returns the `NotFound`
error and returns with the entire store state — index, active fragment id,
unreclaimed-space counter and on-disk fragments — unchanged. -/
theorem remove_absent (s : KvStore) (k : String)
    (hl : lookupK s.index k = none) :
    KvStore.remove s k = (s, some .NotFound) := by
  have h2 : (eraseK s.index k).2 = none := by rw [eraseK_prev, hl]
  cases her : eraseK s.index k with
  | mk idx prev =>
    rw [her] at h2
    simp only [] at h2
    subst h2
    rw [KvStore.remove, her]

/-- Witness for C6 on the empty store. -/
theorem remove_absent_witness :
    KvStore.remove (KvStore.mk 0 0 [] [] []) "key1"
      = (KvStore.mk 0 0 [] [] [], some .NotFound) :=
  remove_absent _ _ (by decide)

/-! ### Claim C10 -/

/-- C10: `remove` deletes the key from the in-memory index before
appending the `Rm` record, so when the append or flush fails with an I/O
error on a present key, the error is returned but the key is already gone
and a subsequent `get` returns `None`. -/
theorem remove_write_fail (s : KvStore) (k : String)
    (hnd : (s.index.map Prod.fst).Nodup)
    (hp : (lookupK s.index k).isSome = true) :
    (removeWriteFails s k).2 = some .Io ∧
    (removeWriteFails s k).1.get k = .ok none := by
  obtain ⟨ep, hep⟩ := Option.isSome_iff_exists.mp hp
  have h2 : (eraseK s.index k).2 = some ep := by rw [eraseK_prev, hep]
  cases her : eraseK s.index k with
  | mk idx prev =>
    rw [her] at h2
    simp only [] at h2
    subst h2
    have hrw : removeWriteFails s k = ({ s with index := idx }, some .Io) := by
      rw [removeWriteFails, her]
    rw [hrw]
    refine ⟨rfl, get_of_absent _ k ?_⟩
    have hh := lookupK_eraseK_self s.index k hnd
    rw [her] at hh
    exact hh

/-- Witness for C10 at a concrete store holding the key. -/
theorem remove_write_fail_witness :
    (removeWriteFails demoStore1 "key1").2 = some .Io ∧
    (removeWriteFails demoStore1 "key1").1.get "key1" = .ok none :=
  remove_write_fail demoStore1 "key1" (by decide) (by decide)

/-! ### Claim C7 -/

/-- C7 counterexample: replaying a log holding `Set a x` then `Rm a` leaves
an unreclaimed-space contribution equal to the prior `Set` record's length
alone; the `Rm` record's own serialized length (which is nonzero) is not
added, contrary to the claim. -/
theorem load_rm_counterexample :
    loadContent 0 (encodeAll [.Set "a" "x", .Rm "a"]) []
      = some ([], (encodeEntry (.Set "a" "x")).length) ∧
    (encodeEntry (.Set "a" "x")).length
      ≠ (encodeEntry (.Set "a" "x")).length + (encodeEntry (.Rm "a")).length :=
  ⟨by decide, by decide⟩

/-- C7 amended: during recovery, a `Remove` record removes its key from
the index and adds the prior entry's length (when one existed, zero
otherwise) to unreclaimed space; the record's own serialized length is not
added. -/
theorem load_rm_accounting (f : Nat) (idx : List (String × EntryPosition))
    (u pos newPos : Nat) (k : String) :
    loadApply f idx u (.Rm k) pos newPos
      = ((eraseK idx k).1, u + psize (eraseK idx k).2) := by
  simp only [loadApply]
  cases (eraseK idx k).2 <;> rfl

/-! ### Claim C8 -/

/-- C8: the compaction threshold is 1,000,000 bytes; a compaction call is
a state-preserving no-op exactly when the unreclaimed-space counter does
not exceed it, and actually compacts (resetting the counter, bumping the
fragment id and dropping the old fragments) when it does; `set`, a
successful `remove`, and `open` each end by invoking this gate. -/
theorem compaction_trigger_gate :
    COMPACTION_THRESHOLD = 1000000 ∧
    (∀ s : KvStore, ¬ COMPACTION_THRESHOLD < s.unreclaimed_space → s.compact = .ok s) ∧
    (∀ s r : KvStore, COMPACTION_THRESHOLD < s.unreclaimed_space → s.compact = .ok r →
      r.unreclaimed_space = 0 ∧ r.fragment = newFragId s ∧ r.others = []) ∧
    (∀ (s : KvStore) (k v : String), KvStore.set s k v = compactFinish (setRaw s k v)) ∧
    (∀ (s : KvStore) (k : String) idx ep, eraseK s.index k = (idx, some ep) →
      KvStore.remove s k = compactFinish (removeRaw s k idx ep)) ∧
    (∀ dir r, openModel dir = .ok r → ∃ t : KvStore, t.compact = .ok r) := by
  refine ⟨rfl, ?_, ?_, fun s k v => rfl, ?_, ?_⟩
  · intro s h
    rw [KvStore.compact, if_neg h]
  · intro s r ht h
    rcases compact_ok_cases _ _ h with ⟨hns, -⟩ | ⟨-, idx, content, -, hr⟩
    · exact absurd ht hns
    · subst hr
      exact ⟨rfl, rfl, rfl⟩
  · intro s k idx ep h
    rw [KvStore.remove, h]
  · intro dir r h
    rw [openModel] at h
    cases hol : openLoad (dir.filter fun p =>
        decide (rustExtensionL p.1.data = some ('k' :: 'v' :: []))) [] 0 0 [] with
    | error e => rw [hol] at h; exact absurd h (by simp)
    | ok q =>
      obtain ⟨idx, u, mx, rd⟩ := q
      rw [hol] at h
      simp only [] at h
      by_cases hemp : rd.isEmpty
      · rw [if_pos hemp] at h
        exact ⟨_, h⟩
      · rw [if_neg hemp] at h
        cases hlk : lookupK dir (fragFileName mx) with
        | none => rw [hlk] at h; exact absurd h (by simp)
        | some content =>
          rw [hlk] at h
          exact ⟨_, h⟩

/-- Witness for C8: the no-op branch at a concrete store below the
threshold. -/
theorem compaction_trigger_gate_witness :
    (KvStore.mk 0 0 [] [] []).compact = .ok (KvStore.mk 0 0 [] [] []) :=
  compaction_trigger_gate.2.1 _ (by decide)

/-! ### Claim C4 -/

/-- C4, evaluated at the failing input: after opening `demoDirC4` the index
records key `a` at fragment 0 (whose bytes decode to `Set a x`), yet `get`
reads through the reader of the active fragment 1 and returns `Some "y"` —
not the indexed fragment's value `Some "x"`. -/
theorem get_wrong_reader_eval :
    (openModel demoDirC4).map
        (fun s => (KvStore.get s "a", lookupK s.index "a", s.fragment))
      = .ok (.ok (some "y"), some ⟨0, 0, (encodeEntry (.Set "a" "x")).length⟩, 1) ∧
    decodeSlice (slice (encodeEntry (.Set "a" "x")) 0 (encodeEntry (.Set "a" "x")).length)
      = some (.Set "a" "x") :=
  ⟨by decide, by decide⟩

/-! ### Claim C3 -/

/-- C3, evaluated at the failing state: before compaction `get("a")`
misreads the active fragment and returns `Some "y"`; the compaction cycle
succeeds and afterwards `get("a")` returns `Some "x"` — the two results
differ, refuting the claim that compaction never changes a `get` result. -/
theorem compact_changes_get_eval :
    1000000 < demoStoreC3.unreclaimed_space ∧
    KvStore.get demoStoreC3 "a" = .ok (some "y") ∧
    (demoStoreC3.compact).map (fun t => KvStore.get t "a") = .ok (.ok (some "x")) :=
  ⟨by decide, by decide, by decide⟩

/-! ### Claim C9 -/

/-- C9 counterexample: `12.34.kv` has extension `kv` and a stem `12.34`
that is not a valid decimal u64, but `open` on a directory containing it
succeeds (the source parses only the part before the first dot, `12`). -/
theorem open_stem_counterexample :
    rustExtensionL "12.34.kv".data = some ('k' :: 'v' :: []) ∧
    parseU64 "12.34".data = none ∧
    (openModel demoDirC9).isOk = true :=
  ⟨by decide, by decide, by decide⟩

/-- The loading fold fails whenever some retained file's fragment id fails
to parse, whatever the accumulated state. -/
theorem openLoad_fails :
    ∀ (files : List (String × List Char)) (idx : List (String × EntryPosition))
      (u mx : Nat) (rd : List (Nat × List Char)),
    (∃ p ∈ files, parseU64 (firstDotComponent p.1.data) = none) →
    ∃ e, openLoad files idx u mx rd = .error e := by
  intro files
  induction files with
  | nil =>
    rintro idx u mx rd ⟨p, hp, -⟩
    simp at hp
  | cons q rest ih =>
    rintro idx u mx rd ⟨p, hp, hbad⟩
    obtain ⟨name0, content0⟩ := q
    rcases List.mem_cons.mp hp with rfl | hmem
    · refine ⟨.Fragment "invalid fragment number", ?_⟩
      rw [openLoad, hbad]
    · cases hpu : parseU64 (firstDotComponent name0.data) with
      | none =>
        refine ⟨.Fragment "invalid fragment number", ?_⟩
        rw [openLoad, hpu]
      | some f =>
        cases hlc : loadContent f content0 idx with
        | none =>
          refine ⟨.Serde, ?_⟩
          rw [openLoad, hpu]
          simp only []
          rw [hlc]
        | some pr =>
          obtain ⟨idx2, du⟩ := pr
          obtain ⟨e, he⟩ := ih idx2 (u + du) (if mx < f then f else mx)
            (insertK rd f content0).1 ⟨p, hmem, hbad⟩
          refine ⟨e, ?_⟩
          rw [openLoad, hpu]
          simp only []
          rw [hlc]
          simp only []
          exact he

/-- C9 amended: for every directory containing a file whose extension is
`kv` but whose first dot-separated component (the part of the name the
source actually parses) is not a valid decimal u64, `open` fails rather
than succeeding, with a `Fragment` error when that file is the first to
fail. -/
theorem open_bad_first_component (dir : List (String × List Char)) (name : String)
    (content : List Char)
    (hmem : (name, content) ∈ dir)
    (hext : rustExtensionL name.data = some ('k' :: 'v' :: []))
    (hbad : parseU64 (firstDotComponent name.data) = none) :
    (openModel dir).isOk = false := by
  have hkv : (name, content) ∈ dir.filter fun p =>
      decide (rustExtensionL p.1.data = some ('k' :: 'v' :: [])) :=
    List.mem_filter.mpr ⟨hmem, decide_eq_true hext⟩
  obtain ⟨e, he⟩ := openLoad_fails _ [] 0 0 [] ⟨(name, content), hkv, hbad⟩
  simp only [openModel]
  rw [he]
  rfl

/-- Witness for the amended C9 at a concrete directory. -/
theorem open_bad_first_component_witness :
    (openModel [("abc.kv", [])]).isOk = false :=
  open_bad_first_component [("abc.kv", [])] "abc.kv" [] (by simp) (by decide) (by decide)

theorem latestStep_no_key (k : String) (acc : Option String) (e : LogEntry)
    (h : ¬ entryKey e = k) : latestStep k acc e = acc := by
  cases e <;> simp [entryKey] at h <;> simp [latestStep, h]

theorem foldl_latestStep_no_key (k : String) (es : List LogEntry)
    (h : ∀ e ∈ es, ¬ entryKey e = k) :
    ∀ acc, es.foldl (latestStep k) acc = acc := by
  induction es with
  | nil => intro acc; rfl
  | cons e es ih =>
    intro acc
    rw [List.foldl_cons, latestStep_no_key k acc e (h e (by simp)),
      ih fun e' he' => h e' (by simp [he'])]

theorem latestVal_cons (e : LogEntry) (es : List LogEntry) (k : String) :
    latestVal (e :: es) k = es.foldl (latestStep k) (latestStep k none e) := rfl

/-- Replaying records none of whose keys is `k0` over an index headed by a
pair for `k0` leaves that head pair in place and otherwise acts as on the
tail index. -/
theorem replayAll_cons_key (g : Nat) (es : List LogEntry) (k0 : String) (hd : EntryPosition) :
    ∀ (idx : List (String × EntryPosition)) (u pos : Nat),
    (∀ e ∈ es, ¬ entryKey e = k0) →
    replayAll g es ((k0, hd) :: idx, u, pos)
      = ((k0, hd) :: (replayAll g es (idx, u, pos)).1,
          (replayAll g es (idx, u, pos)).2.1, (replayAll g es (idx, u, pos)).2.2) := by
  induction es with
  | nil => intro idx u pos _; rfl
  | cons e es ih =>
    intro idx u pos h
    have hk : ¬ entryKey e = k0 := h e (by simp)
    have hstep : replaySnoc g ((k0, hd) :: idx, u, pos) e
        = ((k0, hd) :: (replaySnoc g (idx, u, pos) e).1,
            (replaySnoc g (idx, u, pos) e).2.1, (replaySnoc g (idx, u, pos) e).2.2) := by
      cases e with
      | Set k v =>
        simp only [entryKey] at hk
        simp only [replaySnoc, insertK_cons_ne k0 k hd idx _ (fun he => hk he.symm)]
      | Rm k =>
        simp only [entryKey] at hk
        simp only [replaySnoc, eraseK_cons_ne k0 k hd idx (fun he => hk he.symm)]
    have h1 : replayAll g (e :: es) ((k0, hd) :: idx, u, pos)
        = replayAll g es (replaySnoc g ((k0, hd) :: idx, u, pos) e) := rfl
    have h2 : replayAll g (e :: es) (idx, u, pos)
        = replayAll g es (replaySnoc g (idx, u, pos) e) := rfl
    rw [h1, h2, hstep]
    have := ih (replaySnoc g (idx, u, pos) e).1 (replaySnoc g (idx, u, pos) e).2.1
      (replaySnoc g (idx, u, pos) e).2.2 fun e' he' => h e' (by simp [he'])
    simpa using this

/-- A successful compaction copy loop over an index whose entries all
locate readable encoded `Set` records produces exactly the encoding of one
`Set` per entry, indexed by its own replay; the latest-value semantics of
the copied records agrees with the value function the entries came from. -/
theorem compactLoop_replay (s : KvStore) (g : Nat) (vals : String → Option String) :
    ∀ (entries : List (String × EntryPosition)) (acc : List Char),
    (entries.map Prod.fst).Nodup →
    (∀ p ∈ entries, ∃ c v, readersLookup s p.2.fragment = some c ∧
      p.2.pos + p.2.size ≤ c.length ∧
      slice c p.2.pos p.2.size = encodeEntry (.Set p.1 v) ∧
      vals p.1 = some v) →
    ∃ es2 : List LogEntry,
      compactLoop s g entries acc
        = .ok ((replayAll g es2 ([], 0, acc.length)).1, acc ++ encodeAll es2) ∧
      es2.map entryKey = entries.map Prod.fst ∧
      (∀ k, lookupK entries k = none → latestVal es2 k = none) ∧
      (∀ k ep, lookupK entries k = some ep → latestVal es2 k = vals k) := by
  intro entries
  induction entries with
  | nil =>
    intro acc _ _
    refine ⟨[], ?_, rfl, fun k _ => rfl, fun k ep hk => by simp [lookupK] at hk⟩
    simp [compactLoop, replayAll, encodeAll]
  | cons p0 rest ih =>
    obtain ⟨k0, ep0⟩ := p0
    intro acc hnd hrd
    obtain ⟨c0, v0, hc0, hbd0, hsl0, hv0⟩ := hrd (k0, ep0) (by simp)
    simp only [List.map_cons, List.nodup_cons] at hnd
    obtain ⟨es2', hcl', hkeys', habs', hpres'⟩ :=
      ih (acc ++ slice c0 ep0.pos ep0.size) hnd.2
        (fun p hp => hrd p (by simp [hp]))
    have hlen0 : (slice c0 ep0.pos ep0.size).length = ep0.size := slice_length _ _ _ hbd0
    have hsize0 : ep0.size = (encodeEntry (.Set k0 v0)).length := by
      rw [← hlen0, hsl0]
    have hnok : ∀ e ∈ es2', ¬ entryKey e = k0 := by
      intro e he hke
      apply hnd.1
      have : entryKey e ∈ es2'.map entryKey := List.mem_map.mpr ⟨e, he, rfl⟩
      rw [hkeys'] at this
      rw [← hke]
      exact this
    refine ⟨.Set k0 v0 :: es2', ?_, ?_, ?_, ?_⟩
    · have hidx : (replayAll g (LogEntry.Set k0 v0 :: es2') ([], 0, acc.length)).1
          = (k0, ⟨g, acc.length, ep0.size⟩) ::
              (replayAll g es2' ([], 0,
                acc.length + (encodeEntry (.Set k0 v0)).length)).1 := by
        have h1 : replayAll g (LogEntry.Set k0 v0 :: es2') ([], 0, acc.length)
            = replayAll g es2' (replaySnoc g ([], 0, acc.length) (.Set k0 v0)) := rfl
        have h2 : replaySnoc g ([], 0, acc.length) (.Set k0 v0)
            = ([(k0, ⟨g, acc.length, (encodeEntry (.Set k0 v0)).length⟩)], 0,
                acc.length + (encodeEntry (.Set k0 v0)).length) := by
          simp [replaySnoc, insertK, psize]
        rw [h1, h2, replayAll_cons_key g es2' k0 _ [] 0 _ hnok]
        simp only []
        rw [hsize0]
      rw [compactLoop, hc0]
      simp only []
      rw [if_pos hbd0, hsl0]
      rw [hsl0] at hcl'
      rw [hcl']
      simp only []
      have hacc : (acc ++ encodeEntry (.Set k0 v0)).length
          = acc.length + (encodeEntry (.Set k0 v0)).length := by simp
      rw [hacc, hidx]
      have henc2 : encodeAll (LogEntry.Set k0 v0 :: es2')
          = encodeEntry (.Set k0 v0) ++ encodeAll es2' := by simp [encodeAll]
      rw [henc2, ← List.append_assoc]
    · simp [hkeys', entryKey]
    · intro k hk
      by_cases hkk : k0 = k
      · simp [lookupK, hkk] at hk
      · simp only [lookupK, if_neg hkk] at hk
        rw [latestVal_cons]
        have hstep : latestStep k none (.Set k0 v0) = none := by
          simp [latestStep, hkk]
        rw [hstep]
        exact habs' k hk
    · intro k ep hk
      by_cases hkk : k0 = k
      · subst hkk
        rw [latestVal_cons]
        have hstep : latestStep k0 none (.Set k0 v0) = some v0 := by
          simp [latestStep]
        rw [hstep, foldl_latestStep_no_key k0 es2' hnok, hv0]
      · simp only [lookupK, if_neg hkk] at hk
        rw [latestVal_cons]
        have hstep : latestStep k none (.Set k0 v0) = none := by
          simp [latestStep, hkk]
        rw [hstep]
        exact hpres' k ep hk

theorem get_spec (s : KvStore) (m : List (String × String)) (hinv : Inv s m) (k : String) :
    s.get k = .ok (lookupK m k) := by
  obtain ⟨-, -, -, es, hcont, hidx, hm⟩ := hinv
  obtain ⟨hnd, hk⟩ := replay_spec s.fragment es
  cases hl : lookupK s.index k with
  | none =>
    rw [get_of_absent s k hl, ← hm k]
    rw [hidx] at hl
    rw [(hk k).2 hl]
  | some ep =>
    have hl' := hl
    rw [hidx] at hl
    obtain ⟨hf, hb, v, hv, hs⟩ := (hk k).1 ep hl
    have hres : lookupK m k = some v := by rw [← hm k]; exact hv
    rw [hres]
    refine get_of_entry s k k v ep hl' ?_ ?_
    · rw [hcont]; exact hb
    · rw [hcont]; exact hs

theorem inv_compact (s r : KvStore) (m : List (String × String))
    (hinv : Inv s m) (h : s.compact = .ok r) : Inv r m := by
  obtain ⟨hoth, hfr, hmnd, es, hcont, hidx, hm⟩ := hinv
  rcases compact_ok_cases _ _ h with ⟨-, hr⟩ | ⟨-, idx', content', hcl, hr⟩
  · rw [hr]; exact ⟨hoth, hfr, hmnd, es, hcont, hidx, hm⟩
  · obtain ⟨hnd, hk⟩ := replay_spec s.fragment es
    have hnd' : (s.index.map Prod.fst).Nodup := by rw [hidx]; exact hnd
    have hrd : ∀ p ∈ s.index, ∃ c v, readersLookup s p.2.fragment = some c ∧
        p.2.pos + p.2.size ≤ c.length ∧
        slice c p.2.pos p.2.size = encodeEntry (.Set p.1 v) ∧
        latestVal es p.1 = some v := by
      intro p hp
      have hlk : lookupK s.index p.1 = some p.2 := lookupK_of_mem _ _ _ hp hnd'
      rw [hidx] at hlk
      obtain ⟨hf, hb, v, hv, hs⟩ := (hk p.1).1 p.2 hlk
      refine ⟨encodeAll es, v, ?_, hb, hs, hv⟩
      rw [hf, ← hcont]
      exact readersLookup_active s
    obtain ⟨es2, hcl2, -, habs2, hpres2⟩ :=
      compactLoop_replay s (newFragId s) (fun k => latestVal es k) s.index [] hnd' hrd
    rw [hcl] at hcl2
    simp only [Except.ok.injEq, Prod.mk.injEq] at hcl2
    obtain ⟨hidx2, hcont2⟩ := hcl2
    rw [hr]
    refine ⟨rfl, Nat.mod_lt _ (by norm_num), hmnd, es2, ?_, ?_, ?_⟩
    · show content' = encodeAll es2
      rw [hcont2]
      simp
    · show idx' = replayIndex (newFragId s) es2
      rw [hidx2]
      rfl
    · intro k
      cases hlk : lookupK s.index k with
      | none =>
        rw [habs2 k hlk, ← hm k]
        rw [hidx] at hlk
        rw [(hk k).2 hlk]
      | some ep =>
        rw [hpres2 k ep hlk, hm k]

theorem replaySnoc_fst_congr (f : Nat) (st st' : List (String × EntryPosition) × Nat × Nat)
    (e : LogEntry) (h1 : st.1 = st'.1) (h3 : st.2.2 = st'.2.2) :
    (replaySnoc f st e).1 = (replaySnoc f st' e).1 := by
  cases e <;> simp [replaySnoc, h1, h3]

theorem replayIndex_snoc (f : Nat) (es : List LogEntry) (e : LogEntry) :
    replayIndex f (es ++ [e])
      = (replaySnoc f ((replayAll f es ([], 0, 0)).1, 0, (encodeAll es).length) e).1 := by
  have h0 : replayIndex f (es ++ [e]) = (replaySnoc f (replayAll f es ([], 0, 0)) e).1 := by
    simp only [replayIndex, replayAll_append]
    rfl
  rw [h0]
  apply replaySnoc_fst_congr
  · rfl
  · rw [replayAll_offset]
    simp

theorem inv_set (s : KvStore) (m : List (String × String)) (k v : String)
    (hinv : Inv s m) (h : (KvStore.set s k v).2 = none) :
    Inv (KvStore.set s k v).1 (insertK m k v).1 := by
  obtain ⟨hoth, hfr, hmnd, es, hcont, hidx, hm⟩ := hinv
  have hinv1 : Inv (setRaw s k v) (insertK m k v).1 := by
    refine ⟨hoth, hfr, nodup_keys_insertK m k v hmnd, es ++ [.Set k v], ?_, ?_, ?_⟩
    · show s.active_content ++ encodeEntry (.Set k v) = _
      rw [hcont, encodeAll_append]
      congr 1
      simp [encodeAll]
    · show (insertK s.index k
          ⟨s.fragment, s.active_content.length, (encodeEntry (.Set k v)).length⟩).1
        = replayIndex s.fragment (es ++ [.Set k v])
      rw [replayIndex_snoc]
      have hsn : (replaySnoc s.fragment
            ((replayAll s.fragment es ([], 0, 0)).1, 0, (encodeAll es).length)
            (.Set k v)).1
          = (insertK (replayIndex s.fragment es) k
              ⟨s.fragment, (encodeAll es).length, (encodeEntry (.Set k v)).length⟩).1 := by
        simp [replaySnoc, replayIndex]
      rw [hsn, ← hidx, ← hcont]
    · intro k'
      rw [latestVal_append]
      by_cases hkk : k = k'
      · subst hkk
        simp only [List.foldl_cons, List.foldl_nil, latestStep, eq_self_iff_true, if_true]
        rw [lookupK_insertK_self]
      · simp only [List.foldl_cons, List.foldl_nil, latestStep, if_neg hkk]
        rw [hm k', lookupK_insertK_ne m k k' v (fun he => hkk he.symm)]
  exact inv_compact _ _ _ hinv1 (compactFinish_ok _ h)

theorem inv_remove (s : KvStore) (m : List (String × String)) (k : String)
    (hinv : Inv s m) (h : (KvStore.remove s k).2 = none) :
    Inv (KvStore.remove s k).1 (eraseK m k).1 := by
  obtain ⟨hoth, hfr, hmnd, es, hcont, hidx, hm⟩ := hinv
  cases her : eraseK s.index k with
  | mk idx prev =>
    cases prev with
    | none =>
      have hrm : KvStore.remove s k = (s, some .NotFound) := by
        rw [KvStore.remove, her]
      rw [hrm] at h
      simp at h
    | some ep =>
      have hrm : KvStore.remove s k = compactFinish (removeRaw s k idx ep) := by
        rw [KvStore.remove, her]
      rw [hrm] at h ⊢
      have hinv1 : Inv (removeRaw s k idx ep) (eraseK m k).1 := by
        refine ⟨hoth, hfr, nodup_keys_eraseK m k hmnd, es ++ [.Rm k], ?_, ?_, ?_⟩
        · show s.active_content ++ encodeEntry (.Rm k) = _
          rw [hcont, encodeAll_append]
          congr 1
          simp [encodeAll]
        · show idx = replayIndex s.fragment (es ++ [.Rm k])
          rw [replayIndex_snoc]
          have hsn : (replaySnoc s.fragment
                ((replayAll s.fragment es ([], 0, 0)).1, 0, (encodeAll es).length)
                (.Rm k)).1
              = (eraseK (replayIndex s.fragment es) k).1 := by
            simp [replaySnoc, replayIndex]
          rw [hsn, ← hidx, her]
        · intro k'
          rw [latestVal_append]
          by_cases hkk : k = k'
          · subst hkk
            simp only [List.foldl_cons, List.foldl_nil, latestStep, eq_self_iff_true, if_true]
            rw [lookupK_eraseK_self m k hmnd]
          · simp only [List.foldl_cons, List.foldl_nil, latestStep, if_neg hkk]
            rw [hm k', lookupK_eraseK_ne m k k' (fun he => hkk he.symm)]
      exact inv_compact _ _ _ hinv1 (compactFinish_ok _ h)

theorem run_inv : ∀ (ops : List Op) (s s' : KvStore) (m : List (String × String)),
    Inv s m → run s ops = .ok s' → Inv s' (ops.foldl specStep m) := by
  intro ops
  induction ops with
  | nil =>
    intro s s' m hinv hr
    rw [run] at hr
    simp only [Except.ok.injEq] at hr
    rw [← hr]
    exact hinv
  | cons op ops ih =>
    intro s s' m hinv hr
    rw [run] at hr
    cases hst : stepOp s op with
    | error e => rw [hst] at hr; exact absurd hr (by simp)
    | ok s1 =>
      rw [hst] at hr
      have hinv1 : Inv s1 (specStep m op) := by
        cases op with
        | set k v =>
          cases hsv : KvStore.set s k v with
          | mk s2 err =>
            cases err with
            | none =>
              rw [stepOp, hsv] at hst
              simp only [Except.ok.injEq] at hst
              have h2 := inv_set s m k v hinv (by rw [hsv])
              rw [hsv] at h2
              rw [← hst]
              exact h2
            | some e =>
              rw [stepOp, hsv] at hst
              exact absurd hst (by simp)
        | remove k =>
          cases hsv : KvStore.remove s k with
          | mk s2 err =>
            cases err with
            | none =>
              rw [stepOp, hsv] at hst
              simp only [Except.ok.injEq] at hst
              have h2 := inv_remove s m k hinv (by rw [hsv])
              rw [hsv] at h2
              rw [← hst]
              exact h2
            | some e =>
              rw [stepOp, hsv] at hst
              exact absurd hst (by simp)
        | get k =>
          rw [stepOp] at hst
          cases hg : KvStore.get s k with
          | error e => rw [hg] at hst; exact absurd hst (by simp)
          | ok o =>
            rw [hg] at hst
            simp only [Except.ok.injEq] at hst
            rw [← hst]
            exact hinv
      exact ih s1 s' _ hinv1 hr

/-! ### Decimal file names round-trip -/

theorem natReprF_fuel : ∀ (fuel fuel' n : Nat) (acc : List Char), n < fuel → n < fuel' →
    natReprF fuel n acc = natReprF fuel' n acc := by
  intro fuel
  induction fuel with
  | zero => intro f' n acc h _; omega
  | succ fu ih =>
    intro f' n acc h h'
    obtain ⟨f2, rfl⟩ : ∃ f2, f' = f2 + 1 := ⟨f' - 1, by omega⟩
    by_cases h10 : n < 10
    · rw [natReprF, if_pos h10, natReprF, if_pos h10]
    · rw [natReprF, if_neg h10, natReprF, if_neg h10]
      exact ih f2 (n / 10) _ (by omega) (by omega)

theorem natReprF_acc : ∀ (fuel n : Nat) (acc : List Char), n < fuel →
    natReprF fuel n acc = natReprF fuel n [] ++ acc := by
  intro fuel
  induction fuel with
  | zero => intro n acc h; omega
  | succ fu ih =>
    intro n acc h
    by_cases h10 : n < 10
    · rw [natReprF, if_pos h10, natReprF, if_pos h10]
      rfl
    · rw [natReprF, if_neg h10, natReprF, if_neg h10]
      have hlt : n / 10 < fu := by omega
      rw [ih (n / 10) _ hlt, ih (n / 10) (digitChar (n % 10) :: []) hlt]
      simp

theorem natRepr_eq_low (n : Nat) (h : n < 10) : natRepr n = [digitChar n] := by
  rw [natRepr, natReprF, if_pos h]

theorem natRepr_eq_high (n : Nat) (h : ¬ n < 10) :
    natRepr n = natRepr (n / 10) ++ [digitChar (n % 10)] := by
  rw [natRepr, natReprF, if_neg h]
  rw [natReprF_acc n (n / 10) _ (by omega)]
  rw [natRepr, natReprF_fuel n (n / 10 + 1) (n / 10) [] (by omega) (by omega)]

theorem natRepr_ne_nil (n : Nat) : natRepr n ≠ [] := by
  by_cases h : n < 10
  · rw [natRepr_eq_low n h]
    simp
  · rw [natRepr_eq_high n h]
    simp

theorem natRepr_digits (n : Nat) : ∀ c ∈ natRepr n, ∃ d, d < 10 ∧ c = digitChar d := by
  induction n using Nat.strong_induction_on with
  | _ n ih =>
    by_cases h : n < 10
    · rw [natRepr_eq_low n h]
      intro c hc
      simp at hc
      exact ⟨n, h, hc⟩
    · rw [natRepr_eq_high n h]
      intro c hc
      rcases List.mem_append.mp hc with h1 | h2
      · exact ih (n / 10) (by omega) c h1
      · simp at h2
        exact ⟨n % 10, by omega, h2⟩

theorem digitChar_toNat : ∀ d < 10, (digitChar d).toNat = 48 + d := by decide

theorem foldl_digits_natRepr (n : Nat) :
    ∀ a, (natRepr n).foldl (fun a c => 10 * a + digitVal c) a
      = a * 10 ^ (natRepr n).length + n := by
  induction n using Nat.strong_induction_on with
  | _ n ih =>
    intro a
    by_cases h : n < 10
    · rw [natRepr_eq_low n h]
      simp only [List.foldl_cons, List.foldl_nil, List.length_cons, List.length_nil]
      rw [digitVal, digitChar_toNat n h]
      simp
      omega
    · rw [natRepr_eq_high n h]
      rw [List.foldl_append, ih (n / 10) (by omega) a]
      simp only [List.foldl_cons, List.foldl_nil, List.length_append, List.length_cons,
        List.length_nil]
      rw [digitVal, digitChar_toNat (n % 10) (by omega)]
      have hB : (10 : Nat) ^ ((natRepr (n / 10)).length + (0 + 1))
          = 10 ^ (natRepr (n / 10)).length * 10 := by
        rw [pow_succ]
      rw [hB]
      have := Nat.div_add_mod n 10
      generalize (10 : Nat) ^ (natRepr (n / 10)).length = B
      ring_nf
      omega

theorem parseU64_natRepr (n : Nat) (h : n < 2 ^ 64) : parseU64 (natRepr n) = some n := by
  obtain ⟨c, t, hct⟩ : ∃ c t, natRepr n = c :: t := by
    cases hh : natRepr n with
    | nil => exact absurd hh (natRepr_ne_nil n)
    | cons c t => exact ⟨c, t, rfl⟩
  have hdig : ∀ x ∈ natRepr n, isDigitC x = true := by
    intro x hx
    obtain ⟨d, hd, rfl⟩ := natRepr_digits n x hx
    have hdt := digitChar_toNat d hd
    simp [isDigitC, hdt]
    omega
  have hplus : ¬ c = '+' := by
    have hc : c ∈ natRepr n := by rw [hct]; simp
    obtain ⟨d, hd, rfl⟩ := natRepr_digits n c hc
    intro he
    have hdt := digitChar_toNat d hd
    rw [he] at hdt
    have h43 : ('+' : Char).toNat = 43 := by decide
    omega
  have hval : (natRepr n).foldl (fun a c => 10 * a + digitVal c) 0 = n := by
    rw [foldl_digits_natRepr n 0]
    simp
  have hne : (natRepr n).isEmpty = false := by
    rw [hct]
    rfl
  rw [hct, parseU64, if_neg hplus, ← hct]
  rw [parseDigits]
  rw [if_pos (by simp [hne, List.all_eq_true]; exact hdig)]
  rw [hval, if_pos h]

theorem takeWhile_append_stop (p : Char → Bool) :
    ∀ (l : List Char) (x : Char) (r : List Char),
    (∀ c ∈ l, p c = true) → p x = false → (l ++ x :: r).takeWhile p = l := by
  intro l
  induction l with
  | nil =>
    intro x r _ hx
    simp [List.takeWhile, hx]
  | cons c l' ih =>
    intro x r hl hx
    have hc : p c = true := hl c (by simp)
    simp only [List.cons_append, List.takeWhile, hc, List.append_eq]
    rw [ih x r (fun c' hc' => hl c' (by simp [hc'])) hx]

theorem dropWhile_append_stop (p : Char → Bool) :
    ∀ (l : List Char) (x : Char) (r : List Char),
    (∀ c ∈ l, p c = true) → p x = false → (l ++ x :: r).dropWhile p = x :: r := by
  intro l
  induction l with
  | nil =>
    intro x r _ hx
    simp [List.dropWhile, hx]
  | cons c l' ih =>
    intro x r hl hx
    have hc : p c = true := hl c (by simp)
    simp only [List.cons_append, List.dropWhile, hc, List.append_eq]
    exact ih x r (fun c' hc' => hl c' (by simp [hc'])) hx

theorem fragFileName_data (f : Nat) :
    (fragFileName f).data = natRepr f ++ '.' :: 'k' :: 'v' :: [] := rfl

theorem natRepr_no_dot (n : Nat) : ∀ c ∈ natRepr n, decide (c ≠ '.') = true := by
  intro c hc
  obtain ⟨d, hd, rfl⟩ := natRepr_digits n c hc
  have hne : digitChar d ≠ '.' := by
    intro he
    have hdt := digitChar_toNat d hd
    rw [he] at hdt
    have : ('.' : Char).toNat = 46 := by decide
    omega
  exact decide_eq_true hne

theorem firstDotComponent_fragFileName (f : Nat) :
    firstDotComponent (fragFileName f).data = natRepr f := by
  rw [fragFileName_data, firstDotComponent]
  exact takeWhile_append_stop _ (natRepr f) '.' _ (natRepr_no_dot f) (by decide)

theorem rustExtensionL_fragFileName (f : Nat) :
    rustExtensionL (fragFileName f).data = some ('k' :: 'v' :: []) := by
  rw [fragFileName_data, rustExtensionL]
  have hrev : (natRepr f ++ '.' :: 'k' :: 'v' :: []).reverse
      = 'v' :: 'k' :: '.' :: (natRepr f).reverse := by
    rw [List.reverse_append]
    rfl
  rw [hrev]
  have hdrop : ('v' :: 'k' :: '.' :: (natRepr f).reverse).dropWhile (· ≠ '.')
      = '.' :: (natRepr f).reverse := by
    simp
  have htake : ('v' :: 'k' :: '.' :: (natRepr f).reverse).takeWhile (· ≠ '.')
      = ['v', 'k'] := by
    simp
  rw [hdrop]
  simp only []
  rw [if_neg (by simp [natRepr_ne_nil f]), htake]
  rfl

/-! ### Reopening a single-fragment store -/

theorem inv_reopen (s s' : KvStore) (m : List (String × String))
    (hinv : Inv s m) (h : openModel s.dirListing = .ok s') : Inv s' m := by
  obtain ⟨hoth, hfr, hmnd, es, hcont, hidx, hm⟩ := hinv
  have hdir : s.dirListing = [(fragFileName s.fragment, s.active_content)] := by
    rw [KvStore.dirListing, hoth]
    rfl
  rw [hdir] at h
  have hload : loadContent s.fragment s.active_content []
      = some (replayIndex s.fragment es, (replayAll s.fragment es ([], 0, 0)).2.1) := by
    rw [hcont]
    exact loadContent_encodeAll s.fragment es []
  have hmx : (if 0 < s.fragment then s.fragment else 0) = s.fragment := by
    by_cases h0 : 0 < s.fragment
    · rw [if_pos h0]
    · rw [if_neg h0]
      omega
  have hopenload : openLoad [(fragFileName s.fragment, s.active_content)] [] 0 0 []
      = .ok (replayIndex s.fragment es, 0 + (replayAll s.fragment es ([], 0, 0)).2.1,
          s.fragment, [(s.fragment, s.active_content)]) := by
    rw [openLoad, firstDotComponent_fragFileName s.fragment, parseU64_natRepr _ hfr]
    simp only []
    rw [hload]
    simp only []
    rw [hmx]
    rfl
  have hfilter : ([(fragFileName s.fragment, s.active_content)].filter fun p =>
      decide (rustExtensionL p.1.data = some ('k' :: 'v' :: [])))
      = [(fragFileName s.fragment, s.active_content)] := by
    simp [List.filter_cons, rustExtensionL_fragFileName]
  simp only [openModel] at h
  rw [hfilter, hopenload] at h
  simp only [] at h
  have hemp : ([(s.fragment, s.active_content)] : List (Nat × List Char)).isEmpty = false :=
    rfl
  rw [hemp] at h
  simp only [Bool.false_eq_true, if_false] at h
  have hlkd : lookupK [(fragFileName s.fragment, s.active_content)] (fragFileName s.fragment)
      = some s.active_content := by
    simp [lookupK]
  rw [hlkd] at h
  simp only [] at h
  have hf2 : ([(s.fragment, s.active_content)].filter
      fun p => decide (¬ p.1 = s.fragment)) = [] := by
    simp [List.filter_cons]
  rw [hf2] at h
  have hinv0 : Inv (KvStore.mk (0 + (replayAll s.fragment es ([], 0, 0)).2.1) s.fragment
      s.active_content [] (replayIndex s.fragment es)) m :=
    ⟨rfl, hfr, hmnd, es, hcont, rfl, hm⟩
  exact inv_compact _ _ _ hinv0 h

/-! ### Claim C2 -/

/-- C2: for every sequence of successful set/get/remove operations on a
freshly opened store (open on an empty directory) with final key state
`specState ops`, dropping the handle and reopening the left-behind
directory yields a store whose `get` agrees with that key state on every
key. -/
theorem reopen_preserves_state (ops : List Op) (s0 s s' : KvStore)
    (hopen0 : openModel [] = .ok s0)
    (hrun : run s0 ops = .ok s)
    (hreopen : openModel s.dirListing = .ok s')
    (k : String) :
    s'.get k = .ok (lookupK (specState ops) k) := by
  have hs0 : s0 = KvStore.mk 0 0 [] [] [] := by
    have hinit : openModel [] = .ok (KvStore.mk 0 0 [] [] []) := by decide
    rw [hinit] at hopen0
    exact (Except.ok.inj hopen0).symm
  subst hs0
  have hinv0 : Inv (KvStore.mk 0 0 [] [] []) [] := by
    exact ⟨rfl, by norm_num, by simp, [], rfl, rfl, fun k' => rfl⟩
  have hinv1 := run_inv ops _ s [] hinv0 hrun
  have hinv2 := inv_reopen s s' _ hinv1 hreopen
  exact get_spec s' _ hinv2 k

/-- Witness for C2 at a concrete operation sequence and key. -/
theorem reopen_preserves_state_witness :
    openModel [] = .ok (KvStore.mk 0 0 [] [] []) ∧
    run (KvStore.mk 0 0 [] [] []) demoOps = .ok demoRunStore ∧
    openModel demoRunStore.dirListing = .ok demoReopenStore ∧
    demoReopenStore.get "key1" = .ok (lookupK (specState demoOps) "key1") :=
  ⟨by decide, by decide, by decide,
    reopen_preserves_state demoOps (KvStore.mk 0 0 [] [] []) demoRunStore demoReopenStore
      (by decide) (by decide) (by decide) "key1"⟩

end Kvs

